import Mathlib

/-!
Verification of the strip-engine and buffered-transaction core of the
KeyValueStore object-store backend (src/os/KeyValueStore.cc), as a shallow
embedding. Byte strings are lists of naturals, stripe key-value state is a
function from stripe number to an optional value, and error returns are
modelled with Except over Int error codes (ENOENT = -2, EINVAL = -22,
ENODATA = -61, ENOSPC = -28).
-/

namespace KVStore

/-- SequencerPosition (op_seq, trans_num, op). Modelled from the spec:
the SequencerPosition type itself lives in osd_types.h which is not part of
the given sources; the spec states it is the triple (op_seq, trans_num, op),
totally ordered lexicographically. -/
structure SPos where
  seq : Nat
  trans : Nat
  op : Nat
  deriving DecidableEq, Repr

/-- Lexicographic strict order on sequencer positions, as a Bool. -/
def sposLtB (a b : SPos) : Bool :=
  a.seq < b.seq ∨ (a.seq = b.seq ∧ (a.trans < b.trans ∨
    (a.trans = b.trans ∧ a.op < b.op)))

/-- Lexicographic order a <= b on sequencer positions, as a Bool. -/
def sposLeB (a b : SPos) : Bool := !(sposLtB b a)

/-- StripObjectMap::check_spos (KeyValueStore.cc lines 86-104): returns false
when the pointer is null or when the probed position is strictly greater than
the position recorded in the header; returns true otherwise. The header
argument is reduced to its recorded spos field, the only field read. -/
def check_spos (headerSpos : SPos) (spos : Option SPos) : Bool :=
  match spos with
  | none => false
  | some s => if sposLtB headerSpos s then false else true

/-- StripObjectMap::StripExtent: (stripe number, intra-stripe offset, length). -/
structure StripExtent where
  no : Nat
  offset : Nat
  len : Nat
  deriving DecidableEq, Repr

/-- StripObjectMap::file_to_extents (KeyValueStore.cc lines 161-197).
The C++ accumulates into a vector; the optional leading partial extent, the
full-stripe middle loop and the optional trailing partial extent are rendered
as three concatenated list segments. The loop variable start after the middle
loop equals max start1 endStrip, and strip_offset always equals start times
strip_size. -/
def file_to_extents (offset len strip_size : Nat) : List StripExtent :=
  if len = 0 then []
  else
    let start := offset / strip_size
    let endStrip := (offset + len) / strip_size
    let strip_offset := start * strip_size
    let firstAndNext : List StripExtent × Nat :=
      if strip_offset < offset then
        let extent_offset := offset - strip_offset
        let extent_len :=
          if extent_offset + len ≤ strip_size then len
          else strip_size - extent_offset
        ([⟨start, extent_offset, extent_len⟩], start + 1)
      else ([], start)
    let start1 := firstAndNext.2
    let middles : List StripExtent :=
      (List.range' start1 (endStrip - start1)).map (fun n => ⟨n, 0, strip_size⟩)
    let finalStart := max start1 endStrip
    let tail : List StripExtent :=
      if finalStart * strip_size < offset + len then
        [⟨finalStart, 0, offset + len - finalStart * strip_size⟩]
      else []
    firstAndNext.1 ++ middles ++ tail

/-- The byte positions a strip extent covers in the logical object stream. -/
def expand (strip_size : Nat) (e : StripExtent) : List Nat :=
  List.range' (e.no * strip_size + e.offset) e.len

/-- vector resize with false fill, as used on the presence bitmap. -/
def resizeBits (l : List Bool) (n : Nat) : List Bool :=
  l.take n ++ List.replicate (n - l.length) false

/-- bits[n] as read by the C++ through vector operator[]. Out-of-range access
is undefined behaviour in the source; the embedding reads false there, and
every theorem below only exercises in-range accesses. -/
def bitsGet (bits : List Bool) (n : Nat) : Bool := bits.getD n false

/-- bufferlist::copy(off, n, dst): the n bytes starting at off. -/
def sub (bl : List Nat) (off n : Nat) : List Nat := (bl.drop off).take n

/-- The per-object strip-engine state visible to one committed operation: the
strip header fields consulted by _write / _generic_read / _truncate plus the
stripe keys stored under the strip prefix of this object. -/
structure ObjState where
  strip_size : Nat
  max_size : Nat
  bits : List Bool
  stripes : Nat → Option (List Nat)

/-- A fresh header as produced by lookup_create_header: zero length, empty
bitmap, no stripe keys, with the store default strip size. -/
def freshObj (s : Nat) : ObjState :=
  { strip_size := s, max_size := 0, bits := [], stripes := fun _ => none }

/-- The extent loop of KeyValueStore::_write (lines 1812-1849): walks the
planned extents, building the staged stripe values and updating the presence
bits. get_buffer_key failure (a stripe marked present but missing from the
store) surfaces as an error, as the C++ returns r < 0 there. -/
def writeLoop (s : Nat) (stripes : Nat → Option (List Nat)) (bl : List Nat) :
    List StripExtent → Nat → List Bool →
    Except Int (List (Nat × List Nat) × List Bool)
  | [], _, bits => .ok ([], bits)
  | e :: rest, blo, bits =>
    if bitsGet bits e.no then
      if e.offset = 0 ∧ e.len = s then
        (writeLoop s stripes bl rest (blo + e.len) bits).map
          (fun p => ((e.no, sub bl blo e.len) :: p.1, p.2))
      else
        match stripes e.no with
        | none => .error (-2)
        | some old =>
          let v1 := old.take e.offset ++ sub bl blo e.len
          let value :=
            if v1.length ≠ s then v1 ++ sub old v1.length (s - v1.length)
            else v1
          (writeLoop s stripes bl rest (blo + e.len) bits).map
            (fun p => ((e.no, value) :: p.1, p.2))
    else
      let v1 := List.replicate e.offset 0 ++ sub bl blo e.len
      let value :=
        if v1.length < s then v1 ++ List.replicate (s - v1.length) 0
        else v1
      (writeLoop s stripes bl rest (blo + e.len) (bits.set e.no true)).map
        (fun p => ((e.no, value) :: p.1, p.2))

/-- KeyValueStore::_write (lines 1783-1857) as its effect on the committed
per-object state: clamp len to the caller buffer, grow max_size and the bits
vector when writing past the end, then run the extent loop and stage the
resulting stripe values (set_buffer_keys over a map keyed by stripe). -/
def write (S : ObjState) (offset len0 : Nat) (bl : List Nat) :
    Except Int ObjState :=
  let len := if bl.length < len0 then bl.length else len0
  let grow := S.max_size < len + offset
  let max2 := if grow then len + offset else S.max_size
  let bits2 :=
    if grow then resizeBits S.bits ((len + offset) / S.strip_size + 1)
    else S.bits
  let es := file_to_extents offset len S.strip_size
  (writeLoop S.strip_size S.stripes bl es 0 bits2).map
    (fun p =>
      { strip_size := S.strip_size, max_size := max2, bits := p.2,
        stripes := fun n =>
          match p.1.lookup n with
          | some v => some v
          | none => S.stripes n })

/-- The output loop of KeyValueStore::_generic_read (lines 1603-1624): readed
counts strip_size per processed extent; the extent at which
readed + strip_size exceeds max_size contributes only its sub-range and stops
the loop, every earlier extent contributes one whole stripe (the stored value
when its bit is set, strip_size zeros otherwise). -/
def readLoop (S : ObjState) : List StripExtent → Nat → List Nat
  | [], _ => []
  | e :: rest, readed =>
    if S.max_size < readed + S.strip_size then
      if bitsGet S.bits e.no then ((S.stripes e.no).getD []).take e.len
      else List.replicate e.len 0
    else
      (if bitsGet S.bits e.no then (S.stripes e.no).getD []
       else List.replicate S.strip_size 0)
        ++ readLoop S rest (readed + S.strip_size)

/-- KeyValueStore::_generic_read (lines 1526-1630) on a committed object
state (no BufferTransaction, so the header-buffer branch is not taken):
offset beyond max_size is EINVAL; len 0 or overrun clamps to the remainder;
missing stripe values for set bits reproduce the out.size() != keys.size()
EINVAL; otherwise the output loop produces the bytes. -/
def generic_read (S : ObjState) (offset len0 : Nat) :
    Except Int (List Nat) :=
  if S.max_size < offset then .error (-22)
  else
    let len1 := if len0 = 0 then S.max_size - offset else len0
    let len := if S.max_size < offset + len1 then S.max_size - offset else len1
    let es := file_to_extents offset len S.strip_size
    if es.any (fun e => bitsGet S.bits e.no && (S.stripes e.no).isNone) then
      .error (-22)
    else
      .ok (readLoop S es 0)

/-- The erase loop of KeyValueStore::_truncate (lines 1740-1747): for each
remaining extent whose bit is set, record its key for removal and clear the
bit. The C++ stages one rm_keys of the collected set after the loop; stripe
numbers in the extent plan are pairwise distinct so folding the removals in
is equivalent. -/
def truncEraseLoop (bits : List Bool) (stripes : Nat → Option (List Nat)) :
    List StripExtent → List Bool × (Nat → Option (List Nat))
  | [] => (bits, stripes)
  | e :: rest =>
    if bitsGet bits e.no then
      truncEraseLoop (bits.set e.no false)
        (fun n => if n = e.no then none else stripes n) rest
    else
      truncEraseLoop bits stripes rest

/-- KeyValueStore::_truncate (lines 1693-1761) on the committed per-object
state. Equal size returns early. Shrinking plans extents with
file_to_extents(size, max_size, strip_size) — note the second argument is the
whole old max_size, not max_size - size, exactly as in the source. When the
first extent starts mid-stripe, the source computes the preserved zero-padded
prefix of that boundary stripe, increments the iterator, and only then keys
the value: the value is stored under the NEXT extent stripe key. When no
next extent exists the source dereferences the end iterator (undefined
behaviour); the embedding returns an error there and no theorem exercises
that path. Afterwards bits is resized to size / strip_size + 1 and max_size
is set. Growing only resizes bits and sets max_size. -/
def truncate (S : ObjState) (size : Nat) : Except Int ObjState :=
  if S.max_size = size then .ok S
  else if size < S.max_size then
    let es := file_to_extents size S.max_size S.strip_size
    match es with
    | [] => .error (-22)
    | e0 :: rest =>
      if e0.offset ≠ 0 then
        match S.stripes e0.no with
        | none => .error (-2)
        | some old =>
          let value := old.take e0.offset ++
            List.replicate (S.strip_size - e0.offset) 0
          match rest with
          | [] => .error (-22)
          | e1 :: _ =>
            let stripes1 := fun n =>
              if n = e1.no then some value else S.stripes n
            let er := truncEraseLoop S.bits stripes1 rest
            .ok { strip_size := S.strip_size, max_size := size,
                  bits := resizeBits er.1 (size / S.strip_size + 1),
                  stripes := er.2 }
      else
        let er := truncEraseLoop S.bits S.stripes es
        .ok { strip_size := S.strip_size, max_size := size,
              bits := resizeBits er.1 (size / S.strip_size + 1),
              stripes := er.2 }
  else
    .ok { strip_size := S.strip_size, max_size := size,
          bits := resizeBits S.bits (size / S.strip_size + 1),
          stripes := S.stripes }

/-- A sequence of writes, each committed in its own transaction, applied to
an initially nonexistent object: the first write creates the header
(lookup_cached_header with create_if_missing) with the default strip size. -/
def applyWrites (s : Nat) (ws : List (Nat × List Nat)) : Except Int ObjState :=
  ws.foldl (fun acc w => acc.bind (fun S => write S w.1 w.2.length w.2))
    (.ok (freshObj s))

/-- Spec-side replay semantics: the byte at position i after replaying the
writes in order onto an initially all-zero stream (the last write covering i
wins, unwritten positions read zero). -/
def replayByte (ws : List (Nat × List Nat)) (i : Nat) : Nat :=
  ws.foldl
    (fun acc w =>
      if w.1 ≤ i ∧ i < w.1 + w.2.length then w.2.getD (i - w.1) 0 else acc)
    0

/-- Spec-side object length: the largest end offset among the writes. -/
def maxEnd (ws : List (Nat × List Nat)) : Nat :=
  ws.foldl (fun m w => max m (w.1 + w.2.length)) 0

/-! ### Structural lemmas about file_to_extents -/

theorem mem_range1 {m a k : Nat} : m ∈ List.range' a k ↔ a ≤ m ∧ m < a + k := by
  rw [List.mem_range']
  constructor
  · rintro ⟨i, hi, rfl⟩
    omega
  · intro h
    exact ⟨m - a, by omega, by omega⟩

/-- Division and commutation facts shared by the extent-plan case lemmas. -/
theorem divFacts (o l s : Nat) (hs : 0 < s) :
    o / s * s + o % s = o ∧ (o + l) / s * s + (o + l) % s = o + l ∧
    o % s < s ∧ (o + l) % s < s ∧
    (o / s + 1) * s = o / s * s + s ∧
    o / s ≤ (o + l) / s := by
  refine ⟨?_, ?_, Nat.mod_lt _ hs, Nat.mod_lt _ hs, ?_, ?_⟩
  · have := Nat.div_add_mod o s
    have hc : s * (o / s) = o / s * s := Nat.mul_comm _ _
    omega
  · have := Nat.div_add_mod (o + l) s
    have hc : s * ((o + l) / s) = (o + l) / s * s := Nat.mul_comm _ _
    omega
  · rw [Nat.add_mul, Nat.one_mul]
  · exact Nat.div_le_div_right (by omega)

/-- Case: the range starts mid-stripe and fits inside that stripe. -/
theorem fte_inner (o l s : Nat) (hs : 0 < s) (hl : l ≠ 0) (h1 : o % s ≠ 0)
    (h2 : o % s + l ≤ s) :
    file_to_extents o l s = [⟨o / s, o % s, l⟩] := by
  obtain ⟨d1, d2, hr, hr2, c3, hqe⟩ := divFacts o l s hs
  have hstart : o / s * s < o := by omega
  have hend : (o + l) / s ≤ o / s + 1 := by
    have h3 : o + l ≤ (o / s + 1) * s := by omega
    have := Nat.div_le_div_right (c := s) h3
    rw [Nat.mul_div_cancel _ hs] at this
    omega
  unfold file_to_extents
  rw [if_neg hl]
  dsimp only
  rw [if_pos hstart]
  dsimp only
  have hmid : (o + l) / s - (o / s + 1) = 0 := by omega
  have hmax : max (o / s + 1) ((o + l) / s) = o / s + 1 := by omega
  rw [hmid, hmax]
  have htail : ¬ ((o / s + 1) * s < o + l) := by omega
  rw [if_neg htail]
  have hoff : o - o / s * s = o % s := by omega
  rw [hoff, if_pos h2]
  simp

/-- Tail of the plan shared by the aligned and the spill cases: the last
partial extent exists exactly when the whole range does not end on a stripe
boundary. -/
theorem fte_tail_eq (o l s : Nat) (hs : 0 < s) (hle : (o + l) / s * s ≤ o + l) :
    (if (o + l) / s * s < o + l then
      [(⟨(o + l) / s, 0, o + l - (o + l) / s * s⟩ : StripExtent)]
     else []) =
    (if (o + l) % s ≠ 0 then
      [(⟨(o + l) / s, 0, (o + l) % s⟩ : StripExtent)]
     else []) := by
  have hdm : (o + l) / s * s + (o + l) % s = o + l := by
    have := Nat.div_add_mod (o + l) s
    have hc : s * ((o + l) / s) = (o + l) / s * s := Nat.mul_comm _ _
    omega
  by_cases hz : (o + l) % s = 0
  · rw [if_neg (by omega), if_neg (by simpa using hz)]
  · rw [if_pos (by omega), if_pos (by simpa using hz)]
    have h : o + l - (o + l) / s * s = (o + l) % s := by omega
    rw [h]

/-- Case: the range starts exactly on a stripe boundary. -/
theorem fte_aligned (o l s : Nat) (hs : 0 < s) (hl : l ≠ 0)
    (h1 : o % s = 0) :
    file_to_extents o l s =
      (List.range' (o / s) ((o + l) / s - o / s)).map
        (fun n => ⟨n, 0, s⟩) ++
      (if (o + l) % s ≠ 0 then [⟨(o + l) / s, 0, (o + l) % s⟩] else []) := by
  obtain ⟨d1, d2, hr, hr2, c3, hqe⟩ := divFacts o l s hs
  have hstart : ¬ (o / s * s < o) := by omega
  unfold file_to_extents
  rw [if_neg hl]
  dsimp only
  rw [if_neg hstart]
  dsimp only
  have hmax : max (o / s) ((o + l) / s) = (o + l) / s := by omega
  rw [hmax, fte_tail_eq o l s hs (by omega), List.nil_append]

/-- Case: the range starts mid-stripe and spills past that stripe. -/
theorem fte_spill (o l s : Nat) (hs : 0 < s) (hl : l ≠ 0) (h1 : o % s ≠ 0)
    (h2 : s < o % s + l) :
    file_to_extents o l s =
      ⟨o / s, o % s, s - o % s⟩ ::
      ((List.range' (o / s + 1) ((o + l) / s - (o / s + 1))).map
        (fun n => ⟨n, 0, s⟩) ++
       (if (o + l) % s ≠ 0 then [⟨(o + l) / s, 0, (o + l) % s⟩] else [])) := by
  obtain ⟨d1, d2, hr, hr2, c3, hqe0⟩ := divFacts o l s hs
  have hstart : o / s * s < o := by omega
  have hqe : o / s + 1 ≤ (o + l) / s := by
    rw [Nat.le_div_iff_mul_le hs]
    omega
  unfold file_to_extents
  rw [if_neg hl]
  dsimp only
  rw [if_pos hstart]
  dsimp only
  have hoff : o - o / s * s = o % s := by omega
  rw [hoff, if_neg (by omega : ¬ (o % s + l ≤ s))]
  have hmax : max (o / s + 1) ((o + l) / s) = (o + l) / s := by omega
  rw [hmax, fte_tail_eq o l s hs (by omega)]
  simp

/-- A run of full-stripe extents expands to the matching run of positions. -/
theorem expand_full_range (s : Nat) :
    ∀ k a, ((List.range' a k).map (fun n => (⟨n, 0, s⟩ : StripExtent))).flatMap
      (expand s) = List.range' (a * s) (k * s)
  | 0, a => by simp
  | k + 1, a => by
    rw [List.range'_succ, List.map_cons, List.flatMap_cons,
      expand_full_range s k (a + 1)]
    show List.range' (a * s + 0) s ++ _ = _
    rw [show (a + 1) * s = a * s + s by rw [Nat.add_mul, Nat.one_mul],
      Nat.add_zero, List.range'_append_1]
    congr 1
    rw [Nat.add_mul, Nat.one_mul]

/-- The planned extents cover the byte range [offset, offset + len) exactly,
in order. -/
theorem fte_flatMap (o l s : Nat) (hs : 0 < s) :
    (file_to_extents o l s).flatMap (expand s) = List.range' o l := by
  by_cases hl : l = 0
  · subst hl
    simp [file_to_extents]
  obtain ⟨d1, d2, hr, hr2, c3, hqe⟩ := divFacts o l s hs
  have hsub : ((o + l) / s - o / s) * s = (o + l) / s * s - o / s * s :=
    Nat.sub_mul _ _ _
  have hsub2 : ((o + l) / s - (o / s + 1)) * s =
      (o + l) / s * s - (o / s + 1) * s := Nat.sub_mul _ _ _
  have hmono : o / s * s ≤ (o + l) / s * s := Nat.mul_le_mul_right _ hqe
  by_cases h1 : o % s = 0
  · rw [fte_aligned o l s hs hl h1, List.flatMap_append, expand_full_range]
    by_cases hz : (o + l) % s = 0
    · rw [if_neg (by simpa using hz)]
      rw [List.flatMap_nil, List.append_nil]
      rw [show o / s * s = o by omega]
      congr 1
      omega
    · rw [if_pos (by simpa using hz), List.flatMap_cons, List.flatMap_nil,
        List.append_nil]
      show _ ++ List.range' ((o + l) / s * s + 0) ((o + l) % s) = _
      rw [show (o + l) / s * s + 0 = o / s * s + ((o + l) / s - o / s) * s by
        omega]
      rw [List.range'_append_1, show o / s * s = o by omega]
      congr 1
      omega
  · by_cases h2 : o % s + l ≤ s
    · rw [fte_inner o l s hs hl h1 h2]
      show List.range' (o / s * s + o % s) l ++ [] = _
      rw [List.append_nil, show o / s * s + o % s = o by omega]
    · rw [fte_spill o l s hs hl h1 (by omega), List.flatMap_cons,
        List.flatMap_append, expand_full_range]
      have hqe1 : o / s + 1 ≤ (o + l) / s := by
        rw [Nat.le_div_iff_mul_le hs]
        omega
      have hmono1 : (o / s + 1) * s ≤ (o + l) / s * s :=
        Nat.mul_le_mul_right _ hqe1
      by_cases hz : (o + l) % s = 0
      · rw [if_neg (by simpa using hz)]
        rw [List.flatMap_nil, List.append_nil]
        show List.range' (o / s * s + o % s) (s - o % s) ++ _ = _
        rw [show (o / s + 1) * s =
          (o / s * s + o % s) + (s - o % s) by omega]
        rw [List.range'_append_1, show o / s * s + o % s = o by omega]
        congr 1
        omega
      · rw [if_pos (by simpa using hz), List.flatMap_cons, List.flatMap_nil,
          List.append_nil]
        show List.range' (o / s * s + o % s) (s - o % s) ++
          (_ ++ List.range' ((o + l) / s * s + 0) ((o + l) % s)) = _
        rw [show (o + l) / s * s + 0 =
          (o / s + 1) * s + ((o + l) / s - (o / s + 1)) * s by omega]
        rw [List.range'_append_1]
        rw [show (o / s + 1) * s =
          (o / s * s + o % s) + (s - o % s) by omega]
        rw [List.range'_append_1, show o / s * s + o % s = o by omega]
        congr 1
        omega

/-- The stripe numbers of the plan are consecutive starting at offset / s. -/
theorem fte_nos (o l s : Nat) (hs : 0 < s) :
    (file_to_extents o l s).map (fun e => e.no) =
      List.range' (o / s) (file_to_extents o l s).length := by
  by_cases hl : l = 0
  · subst hl
    simp [file_to_extents]
  obtain ⟨d1, d2, hr, hr2, c3, hqe⟩ := divFacts o l s hs
  by_cases h1 : o % s = 0
  · rw [fte_aligned o l s hs hl h1]
    by_cases hz : (o + l) % s = 0
    · rw [if_neg (by simpa using hz)]
      simp only [List.append_nil, List.map_map, List.length_map,
        List.length_range']
      have : ((fun e => StripExtent.no e) ∘ fun n =>
          (⟨n, 0, s⟩ : StripExtent)) = id := rfl
      rw [this, List.map_id]
    · rw [if_pos (by simpa using hz)]
      simp only [List.map_append, List.map_map, List.map_cons, List.map_nil,
        List.length_append, List.length_map, List.length_range',
        List.length_cons, List.length_nil]
      have : ((fun e => StripExtent.no e) ∘ fun n =>
          (⟨n, 0, s⟩ : StripExtent)) = id := rfl
      rw [this, List.map_id]
      rw [List.range'_1_concat,
        show o / s + ((o + l) / s - o / s) = (o + l) / s by omega]
  · have h0 : o / s + 1 ≤ (o + l) / s → True := fun _ => trivial
    by_cases h2 : o % s + l ≤ s
    · rw [fte_inner o l s hs hl h1 h2]
      simp
    · have hqe1 : o / s + 1 ≤ (o + l) / s := by
        rw [Nat.le_div_iff_mul_le hs]
        omega
      rw [fte_spill o l s hs hl h1 (by omega)]
      by_cases hz : (o + l) % s = 0
      · rw [if_neg (by simpa using hz)]
        simp only [List.append_nil, List.map_cons, List.map_map,
          List.length_cons, List.length_map, List.length_range']
        have : ((fun e => StripExtent.no e) ∘ fun n =>
            (⟨n, 0, s⟩ : StripExtent)) = id := rfl
        rw [this, List.map_id, List.range'_succ]
      · rw [if_pos (by simpa using hz)]
        simp only [List.map_cons, List.map_append, List.map_map,
          List.map_nil, List.length_cons, List.length_append,
          List.length_map, List.length_range', List.length_nil]
        have : ((fun e => StripExtent.no e) ∘ fun n =>
            (⟨n, 0, s⟩ : StripExtent)) = id := rfl
        rw [this, List.map_id]
        rw [List.range'_succ, List.range'_1_concat,
          show o / s + 1 + ((o + l) / s - (o / s + 1)) = (o + l) / s by omega]

/-- Per-extent bounds: every planned extent is nonempty, fits inside one
stripe, and the positions before its intra-stripe offset lie before the
requested range (only the first extent can have a nonzero offset). -/
theorem fte_bounds (o l s : Nat) (hs : 0 < s) :
    ∀ e ∈ file_to_extents o l s,
      e.offset + e.len ≤ s ∧ 0 < e.len ∧ (∀ j, j < e.offset → e.no * s + j < o) := by
  intro e he
  by_cases hl : l = 0
  · subst hl
    simp [file_to_extents] at he
  obtain ⟨d1, d2, hr, hr2, c3, hqe⟩ := divFacts o l s hs
  by_cases h1 : o % s = 0
  · rw [fte_aligned o l s hs hl h1] at he
    rcases List.mem_append.1 he with hm | ht
    · obtain ⟨n, _, rfl⟩ := List.mem_map.1 hm
      refine ⟨by dsimp only; omega, by dsimp only; omega, ?_⟩
      intro j hj
      dsimp only at hj ⊢
      omega
    · by_cases hz : (o + l) % s = 0
      · rw [if_neg (by simpa using hz)] at ht
        simp at ht
      · rw [if_pos (by simpa using hz)] at ht
        obtain rfl := List.mem_singleton.1 ht
        refine ⟨by dsimp only; omega, by dsimp only; omega, ?_⟩
        intro j hj
        dsimp only at hj ⊢
        omega
  · by_cases h2 : o % s + l ≤ s
    · rw [fte_inner o l s hs hl h1 h2] at he
      obtain rfl := List.mem_singleton.1 he
      refine ⟨by dsimp only; omega, by dsimp only; omega, ?_⟩
      intro j hj
      dsimp only at hj ⊢
      omega
    · rw [fte_spill o l s hs hl h1 (by omega)] at he
      rcases List.mem_cons.1 he with rfl | he2
      · refine ⟨by dsimp only; omega, by dsimp only; omega, ?_⟩
        intro j hj
        dsimp only at hj ⊢
        omega
      · rcases List.mem_append.1 he2 with hm | ht
        · obtain ⟨n, _, rfl⟩ := List.mem_map.1 hm
          refine ⟨by dsimp only; omega, by dsimp only; omega, ?_⟩
          intro j hj
          dsimp only at hj ⊢
          omega
        · by_cases hz : (o + l) % s = 0
          · rw [if_neg (by simpa using hz)] at ht
            simp at ht
          · rw [if_pos (by simpa using hz)] at ht
            obtain rfl := List.mem_singleton.1 ht
            refine ⟨by dsimp only; omega, by dsimp only; omega, ?_⟩
            intro j hj
            dsimp only at hj ⊢
            omega

/-- The stripe numbers of the plan never exceed (offset + len) / s. -/
theorem fte_no_le (o l s : Nat) (hs : 0 < s) :
    ∀ e ∈ file_to_extents o l s, e.no ≤ (o + l) / s := by
  intro e he
  have hmem : e.no ∈ (file_to_extents o l s).map (fun e => e.no) :=
    List.mem_map.2 ⟨e, he, rfl⟩
  rw [fte_nos o l s hs] at hmem
  obtain ⟨h1, h2⟩ := mem_range1.1 hmem
  by_cases hl : l = 0
  · subst hl
    simp [file_to_extents] at he
  obtain ⟨d1, d2, hr, hr2, c3, hqe⟩ := divFacts o l s hs
  have hlen : o / s + (file_to_extents o l s).length ≤ (o + l) / s + 1 := by
    have hflat := fte_flatMap o l s hs
    have hlen2 : ((file_to_extents o l s).flatMap (expand s)).length = l := by
      rw [hflat, List.length_range']
    by_contra hcon
    push_neg at hcon
    have hmem2 : (o + l) / s + 1 ∈ (file_to_extents o l s).map (fun e => e.no) := by
      rw [fte_nos o l s hs]
      exact mem_range1.2 ⟨by omega, by omega⟩
    obtain ⟨e2, he2, hno⟩ := List.mem_map.1 hmem2
    obtain ⟨hb1, hb2, _⟩ := fte_bounds o l s hs e2 he2
    have hpos : e2.no * s + e2.offset ∈ (file_to_extents o l s).flatMap (expand s) := by
      rw [List.mem_flatMap]
      exact ⟨e2, he2, mem_range1.2 ⟨by omega, by omega⟩⟩
    rw [hflat, mem_range1] at hpos
    have : ((o + l) / s + 1) * s ≤ e2.no * s := by
      have := Nat.mul_le_mul_right s (Nat.le_of_eq hno.symm)
      omega
    have h3 : ((o + l) / s + 1) * s = (o + l) / s * s + s := by
      rw [Nat.add_mul, Nat.one_mul]
    omega
  omega

/-! ### Byte-level support lemmas -/

theorem sub_length (bl : List Nat) (blo k : Nat) (h : blo + k ≤ bl.length) :
    (sub bl blo k).length = k := by
  simp only [sub, List.length_take, List.length_drop]
  omega

theorem getD_append_left (a b : List Nat) (j d : Nat) (h : j < a.length) :
    (a ++ b).getD j d = a.getD j d := by
  rw [List.getD_eq_getElem?_getD, List.getD_eq_getElem?_getD,
    List.getElem?_append_left h]

theorem getD_append_right (a b : List Nat) (j d : Nat) (h : a.length ≤ j) :
    (a ++ b).getD j d = b.getD (j - a.length) d := by
  rw [List.getD_eq_getElem?_getD, List.getD_eq_getElem?_getD,
    List.getElem?_append_right h]

theorem getD_replicate (n a j d : Nat) (h : j < n) :
    (List.replicate n a).getD j d = a := by
  rw [List.getD_eq_getElem?_getD, List.getElem?_replicate, if_pos h]
  rfl

theorem sub_getD (bl : List Nat) (blo k j d : Nat) (h : j < k) :
    (sub bl blo k).getD j d = bl.getD (blo + j) d := by
  rw [sub, List.getD_eq_getElem?_getD, List.getD_eq_getElem?_getD,
    List.getElem?_take, if_pos h, List.getElem?_drop]

theorem getD_take (bl : List Nat) (k j d : Nat) (h : j < k) :
    (bl.take k).getD j d = bl.getD j d := by
  rw [List.getD_eq_getElem?_getD, List.getD_eq_getElem?_getD,
    List.getElem?_take, if_pos h]

theorem bitsGet_set_ne (bits : List Bool) (m n : Nat) (b : Bool) (h : m ≠ n) :
    bitsGet (bits.set m b) n = bitsGet bits n := by
  simp only [bitsGet, List.getD_eq_getElem?_getD, List.getElem?_set_ne h]

theorem bitsGet_set_self (bits : List Bool) (n : Nat) (b : Bool)
    (h : n < bits.length) : bitsGet (bits.set n b) n = b := by
  simp only [bitsGet, List.getD_eq_getElem?_getD, List.getElem?_set_self h,
    Option.getD_some]

theorem stripe_of_pos (s n p : Nat) (hs : 0 < s) (h1 : n * s ≤ p)
    (h2 : p < n * s + s) : p / s = n :=
  Nat.div_eq_of_lt_le h1 (by rw [Nat.add_mul, Nat.one_mul]; omega)

theorem lookup_eq_none_of_not_mem_fst {α : Type} (vals : List (Nat × α))
    (n : Nat) (h : n ∉ vals.map Prod.fst) : vals.lookup n = none := by
  induction vals with
  | nil => rfl
  | cons pr rest ih =>
    rcases pr with ⟨k, v⟩
    simp only [List.map_cons, List.mem_cons] at h
    push_neg at h
    have hb : (n == k) = false := by simpa using h.1
    simp [List.lookup, hb, ih h.2]

theorem mem_of_lookup {α : Type} (vals : List (Nat × α)) (n : Nat) (v : α)
    (h : vals.lookup n = some v) : (n, v) ∈ vals := by
  induction vals with
  | nil => simp [List.lookup] at h
  | cons pr rest ih =>
    rcases pr with ⟨k, w⟩
    by_cases he : n = k
    · subst he
      simp [List.lookup] at h
      rw [h]
      exact List.mem_cons_self _ _
    · have hb : (n == k) = false := by simpa using he
      simp [List.lookup, hb] at h
      exact List.mem_cons_of_mem _ (ih h)

theorem lookup_isSome_of_mem_fst {α : Type} (vals : List (Nat × α))
    (n : Nat) (h : n ∈ vals.map Prod.fst) : ∃ v, vals.lookup n = some v := by
  induction vals with
  | nil => simp at h
  | cons pr rest ih =>
    rcases pr with ⟨k, v⟩
    by_cases he : n = k
    · subst he
      exact ⟨v, by simp [List.lookup]⟩
    · have hb : (n == k) = false := by simpa using he
      simp only [List.map_cons, List.mem_cons] at h
      obtain ⟨w, hw⟩ := ih (h.resolve_left he)
      exact ⟨w, by simp [List.lookup, hb, hw]⟩

/-! ### Correctness of the write extent loop -/

/-- Splitting a covering of a position range at its first extent. -/
theorem cover_head (s : Nat) (e : StripExtent) (rest : List StripExtent)
    (A m : Nat) (hel : 0 < e.len)
    (hexp : expand s e ++ rest.flatMap (expand s) = List.range' A m) :
    e.no * s + e.offset = A ∧ e.len ≤ m ∧
    rest.flatMap (expand s) = List.range' (A + e.len) (m - e.len) := by
  have hl : e.len + (rest.flatMap (expand s)).length = m := by
    have h := congrArg List.length hexp
    simpa [expand] using h
  obtain ⟨k, hk⟩ : ∃ k, e.len = k + 1 := ⟨e.len - 1, by omega⟩
  rw [expand, hk, List.range'_succ, List.cons_append] at hexp
  obtain ⟨hA, hm, htail⟩ := List.range'_eq_cons_iff.1 hexp.symm
  have hsplit : List.range' (e.no * s + e.offset + 1) (m - 1) =
      List.range' (e.no * s + e.offset + 1) k ++
      List.range' (e.no * s + e.offset + 1 + k) (m - 1 - k) := by
    rw [List.range'_append_1]
    congr 1
    omega
  rw [hsplit] at htail
  have hcancel := List.append_cancel_left htail
  refine ⟨hA.symm, by omega, ?_⟩
  rw [hcancel]
  congr 1 <;> omega

theorem writeLoop_ok (s : Nat) (hs : 0 < s) (c : Nat → Nat)
    (stripes : Nat → Option (List Nat)) (bl : List Nat) (off len : Nat)
    (hble : len ≤ bl.length) :
    ∀ (es : List StripExtent) (blo : Nat) (bits : List Bool),
    es.flatMap (expand s) = List.range' (off + blo) (len - blo) →
    blo ≤ len →
    (es.map (fun e => e.no)).Nodup →
    (∀ e ∈ es, e.offset + e.len ≤ s ∧ 0 < e.len ∧
      ∀ j, j < e.offset → e.no * s + j < off) →
    (∀ e ∈ es, e.no < bits.length) →
    (∀ e ∈ es, bitsGet bits e.no = true →
      ∃ v, stripes e.no = some v ∧ v.length = s ∧
        ∀ j, j < s → v.getD j 0 = c (e.no * s + j)) →
    (∀ e ∈ es, bitsGet bits e.no = false →
      ∀ j, j < s → c (e.no * s + j) = 0) →
    ∃ vals bits3, writeLoop s stripes bl es blo bits = .ok (vals, bits3) ∧
      vals.map Prod.fst = es.map (fun e => e.no) ∧
      bits3.length = bits.length ∧
      (∀ n, bitsGet bits3 n =
        (bitsGet bits n || es.any (fun x => x.no == n))) ∧
      ∀ pr ∈ vals, pr.2.length = s ∧
        ∀ j, j < s → pr.2.getD j 0 =
          (if off ≤ pr.1 * s + j ∧ pr.1 * s + j < off + len
           then bl.getD (pr.1 * s + j - off) 0 else c (pr.1 * s + j)) := by
  intro es
  induction es with
  | nil =>
    intro blo bits _ _ _ _ _ _ _
    exact ⟨[], bits, rfl, rfl, rfl, fun n => by simp, by simp⟩
  | cons e rest ih =>
    intro blo bits h1 h2 hnd h4 h5 h6 h7
    obtain ⟨hbound, hel, hoffb⟩ := h4 e (List.mem_cons_self e rest)
    rw [List.flatMap_cons] at h1
    obtain ⟨hstart, hlenle, hrest⟩ := cover_head s e rest _ _ hel h1
    have hble2 : blo + e.len ≤ len := by omega
    have hrest2 : rest.flatMap (expand s) =
        List.range' (off + (blo + e.len)) (len - (blo + e.len)) := by
      rw [hrest]
      congr 1 <;> omega
    have hndpair : (∀ x ∈ rest, ¬ x.no = e.no) ∧
        (rest.map (fun x => x.no)).Nodup := by simpa using hnd
    have hndr : (rest.map (fun x => x.no)).Nodup := hndpair.2
    have hne : ∀ e2 ∈ rest, e2.no ≠ e.no := fun e2 he2 => hndpair.1 e2 he2
    have hzone : ∀ j, e.offset + e.len ≤ j → j < s →
        off + len ≤ e.no * s + j := by
      intro j hj1 hj2
      by_contra hcon
      push_neg at hcon
      have hmem : e.no * s + j ∈ rest.flatMap (expand s) := by
        rw [hrest, mem_range1]
        omega
      obtain ⟨e2, he2, hpe2⟩ := List.mem_flatMap.1 hmem
      obtain ⟨hb2, hel2, _⟩ := h4 e2 (List.mem_cons_of_mem _ he2)
      rw [expand, mem_range1] at hpe2
      have hdiv1 : (e.no * s + j) / s = e.no :=
        stripe_of_pos s e.no _ hs (by omega) (by omega)
      have hdiv2 : (e.no * s + j) / s = e2.no :=
        stripe_of_pos s e2.no _ hs (by omega) (by omega)
      exact hne e2 he2 (by omega)
    have h4r := fun e2 he2 => h4 e2 (List.mem_cons_of_mem _ he2)
    by_cases hbit : bitsGet bits e.no
    · have h5r := fun e2 he2 => h5 e2 (List.mem_cons_of_mem _ he2)
      have h6r := fun e2 he2 => h6 e2 (List.mem_cons_of_mem _ he2)
      have h7r := fun e2 he2 => h7 e2 (List.mem_cons_of_mem _ he2)
      obtain ⟨vals, bits3, hwl, hm1, hm2, hm3, hm4⟩ :=
        ih (blo + e.len) bits hrest2 hble2 hndr h4r h5r h6r h7r
      by_cases hfull : e.offset = 0 ∧ e.len = s
      · refine ⟨(e.no, sub bl blo e.len) :: vals, bits3, ?_, ?_, hm2, ?_, ?_⟩
        · simp only [writeLoop, hbit, if_true, if_pos hfull, hwl, Except.map]
        · simp [hm1]
        · intro n
          rw [hm3 n]
          by_cases hn : e.no = n
          · subst hn
            simp [hbit]
          · simp only [List.any_cons]
            have : (e.no == n) = false := by simpa using hn
            rw [this]
            simp
        · intro pr hpr
          rcases List.mem_cons.1 hpr with rfl | hpr2
          · constructor
            · dsimp only
              rw [sub_length bl blo e.len (by omega)]
              omega
            · intro j hj
              dsimp only
              have hj2 : j < e.len := by omega
              rw [sub_getD bl blo e.len j 0 hj2]
              rw [if_pos (by omega)]
              congr 1
              omega
          · exact hm4 pr hpr2
      · obtain ⟨old, hold, holdlen, holdbytes⟩ :=
          h6 e (List.mem_cons_self e rest) hbit
        have htake : (old.take e.offset).length = e.offset := by
          rw [List.length_take]
          omega
        have hsublen : (sub bl blo e.len).length = e.len :=
          sub_length bl blo e.len (by omega)
        have hv1len : (old.take e.offset ++ sub bl blo e.len).length =
            e.offset + e.len := by
          rw [List.length_append, htake, hsublen]
        refine ⟨(e.no,
            if (old.take e.offset ++ sub bl blo e.len).length ≠ s
            then (old.take e.offset ++ sub bl blo e.len) ++
              sub old (old.take e.offset ++ sub bl blo e.len).length
                (s - (old.take e.offset ++ sub bl blo e.len).length)
            else old.take e.offset ++ sub bl blo e.len) :: vals,
          bits3, ?_, ?_, hm2, ?_, ?_⟩
        · simp only [writeLoop, hbit, if_true, if_neg hfull, hold, hwl,
            Except.map]
        · simp [hm1]
        · intro n
          rw [hm3 n]
          by_cases hn : e.no = n
          · subst hn
            simp [hbit]
          · simp only [List.any_cons]
            have : (e.no == n) = false := by simpa using hn
            rw [this]
            simp
        · intro pr hpr
          rcases List.mem_cons.1 hpr with rfl | hpr2
          · dsimp only
            by_cases hveq : (old.take e.offset ++ sub bl blo e.len).length ≠ s
            · rw [if_pos hveq]
              have hpadlen : (sub old (e.offset + e.len)
                  (s - (e.offset + e.len))).length = s - (e.offset + e.len) := by
                apply sub_length
                omega
              constructor
              · rw [List.length_append, hv1len, hpadlen]
                omega
              · intro j hj
                rw [hv1len]
                by_cases hz1 : j < e.offset
                · rw [getD_append_left _ _ _ _ (by omega),
                    getD_append_left _ _ _ _ (by omega),
                    getD_take _ _ _ _ hz1, holdbytes j (by omega),
                    if_neg (by have := hoffb j hz1; omega)]
                · by_cases hz2 : j < e.offset + e.len
                  · rw [getD_append_left _ _ _ _ (by omega),
                      getD_append_right _ _ _ _ (by omega), htake,
                      sub_getD _ _ _ _ _ (by omega),
                      if_pos (by omega)]
                    congr 1
                    omega
                  · rw [getD_append_right _ _ _ _ (by omega), hv1len,
                      sub_getD _ _ _ _ _ (by omega),
                      if_neg (by have := hzone j (by omega) hj; omega)]
                    rw [show e.offset + e.len + (j - (e.offset + e.len)) = j by
                      omega]
                    exact holdbytes j hj
            · rw [if_neg hveq]
              push_neg at hveq
              constructor
              · rw [hv1len] at hveq
                rw [hv1len, hveq]
              · intro j hj
                rw [hv1len] at hveq
                by_cases hz1 : j < e.offset
                · rw [getD_append_left _ _ _ _ (by omega),
                    getD_take _ _ _ _ hz1, holdbytes j (by omega),
                    if_neg (by have := hoffb j hz1; omega)]
                · rw [getD_append_right _ _ _ _ (by omega), htake,
                    sub_getD _ _ _ _ _ (by omega),
                    if_pos (by omega)]
                  congr 1
                  omega
          · exact hm4 pr hpr2
    · have hlt : e.no < bits.length := h5 e (List.mem_cons_self e rest)
      have h5r : ∀ e2 ∈ rest, e2.no < (bits.set e.no true).length := by
        intro e2 he2
        rw [List.length_set]
        exact h5 e2 (List.mem_cons_of_mem _ he2)
      have h6r : ∀ e2 ∈ rest, bitsGet (bits.set e.no true) e2.no = true →
          ∃ v, stripes e2.no = some v ∧ v.length = s ∧
            ∀ j, j < s → v.getD j 0 = c (e2.no * s + j) := by
        intro e2 he2 hb
        rw [bitsGet_set_ne _ _ _ _ (fun hcon => hne e2 he2 hcon.symm)] at hb
        exact h6 e2 (List.mem_cons_of_mem _ he2) hb
      have h7r : ∀ e2 ∈ rest, bitsGet (bits.set e.no true) e2.no = false →
          ∀ j, j < s → c (e2.no * s + j) = 0 := by
        intro e2 he2 hb
        rw [bitsGet_set_ne _ _ _ _ (fun hcon => hne e2 he2 hcon.symm)] at hb
        exact h7 e2 (List.mem_cons_of_mem _ he2) hb
      obtain ⟨vals, bits3, hwl, hm1, hm2, hm3, hm4⟩ :=
        ih (blo + e.len) (bits.set e.no true) hrest2 hble2 hndr h4r h5r h6r h7r
      have hczero := h7 e (List.mem_cons_self e rest) (by simpa using hbit)
      have hsublen : (sub bl blo e.len).length = e.len :=
        sub_length bl blo e.len (by omega)
      have hv1len : (List.replicate e.offset (0 : Nat) ++
          sub bl blo e.len).length = e.offset + e.len := by
        rw [List.length_append, List.length_replicate, hsublen]
      refine ⟨(e.no,
          if (List.replicate e.offset (0 : Nat) ++ sub bl blo e.len).length < s
          then (List.replicate e.offset (0 : Nat) ++ sub bl blo e.len) ++
            List.replicate
              (s - (List.replicate e.offset (0 : Nat) ++
                sub bl blo e.len).length) 0
          else List.replicate e.offset (0 : Nat) ++ sub bl blo e.len) :: vals,
        bits3, ?_, ?_, ?_, ?_, ?_⟩
      · simp only [writeLoop, hbit, Bool.false_eq_true, if_false, hwl,
          Except.map]
      · simp [hm1]
      · rw [hm2, List.length_set]
      · intro n
        rw [hm3 n]
        by_cases hn : e.no = n
        · subst hn
          rw [bitsGet_set_self _ _ _ hlt]
          simp
        · rw [bitsGet_set_ne _ _ _ _ hn]
          simp only [List.any_cons]
          have : (e.no == n) = false := by simpa using hn
          rw [this]
          simp
      · intro pr hpr
        rcases List.mem_cons.1 hpr with rfl | hpr2
        · dsimp only
          by_cases hveq : (List.replicate e.offset (0 : Nat) ++
              sub bl blo e.len).length < s
          · rw [if_pos hveq]
            constructor
            · rw [List.length_append, List.length_replicate, hv1len]
              omega
            · intro j hj
              rw [hv1len] at hveq ⊢
              by_cases hz1 : j < e.offset
              · rw [getD_append_left _ _ _ _ (by omega),
                  getD_append_left _ _ _ _ (by simpa using hz1),
                  getD_replicate _ _ _ _ hz1,
                  if_neg (by have := hoffb j hz1; omega)]
                exact (hczero j (by omega)).symm
              · by_cases hz2 : j < e.offset + e.len
                · rw [getD_append_left _ _ _ _ (by omega),
                    getD_append_right _ _ _ _ (by simp; omega),
                    List.length_replicate, sub_getD _ _ _ _ _ (by omega),
                    if_pos (by omega)]
                  congr 1
                  omega
                · rw [getD_append_right _ _ _ _ (by omega), hv1len,
                    getD_replicate _ _ _ _ (by omega),
                    if_neg (by have := hzone j (by omega) hj; omega)]
                  exact (hczero j hj).symm
          · rw [if_neg hveq]
            rw [hv1len] at hveq
            constructor
            · rw [hv1len]
              omega
            · intro j hj
              by_cases hz1 : j < e.offset
              · rw [getD_append_left _ _ _ _ (by simpa using hz1),
                  getD_replicate _ _ _ _ hz1,
                  if_neg (by have := hoffb j hz1; omega)]
                exact (hczero j (by omega)).symm
              · rw [getD_append_right _ _ _ _ (by simp; omega),
                  List.length_replicate, sub_getD _ _ _ _ _ (by omega),
                  if_pos (by omega)]
                congr 1
                omega
        · exact hm4 pr hpr2

/-! ### Effect of one committed write -/

theorem resizeBits_length (l : List Bool) (n : Nat) :
    (resizeBits l n).length = n := by
  simp only [resizeBits, List.length_append, List.length_take,
    List.length_replicate]
  omega

theorem bitsGet_resizeBits_ge (l : List Bool) (n m : Nat)
    (h : l.length ≤ n) : bitsGet (resizeBits l n) m = bitsGet l m := by
  rw [resizeBits, List.take_of_length_le h]
  by_cases hm : m < l.length
  · simp only [bitsGet, List.getD_eq_getElem?_getD, List.getElem?_append_left hm]
  · push_neg at hm
    simp only [bitsGet, List.getD_eq_getElem?_getD,
      List.getElem?_append_right hm, List.getElem?_replicate]
    rw [List.getElem?_eq_none (by omega)]
    split <;> rfl

/-- The byte stream after splicing the written buffer over the old content. -/
def cNew (off : Nat) (bl : List Nat) (c : Nat → Nat) (p : Nat) : Nat :=
  if off ≤ p ∧ p < off + bl.length then bl.getD (p - off) 0 else c p

/-- The data invariant tying the presence bitmap and the stored stripe values
to a logical byte-content function: a set bit stores exactly one
strip_size-long value holding the content of its stripe, and a clear bit
means the whole stripe reads zero. -/
def StateInv (S : ObjState) (c : Nat → Nat) : Prop :=
  (∀ n, bitsGet S.bits n = true → ∃ v, S.stripes n = some v ∧
    v.length = S.strip_size ∧
    ∀ j, j < S.strip_size → v.getD j 0 = c (n * S.strip_size + j)) ∧
  (∀ n, bitsGet S.bits n = false →
    ∀ j, j < S.strip_size → c (n * S.strip_size + j) = 0)

/-- The bits-vector length law maintained by the code: exactly
max_size / strip_size + 1 entries once the object has been written, with the
freshly created empty header as the only other shape. -/
def BitsLen (S : ObjState) : Prop :=
  S.bits.length = S.max_size / S.strip_size + 1 ∨
    (S.max_size = 0 ∧ S.bits = [])

/-- Unfolding the definition of write at len0 = bl.length. -/
theorem write_eq (S : ObjState) (off : Nat) (bl : List Nat) :
    write S off bl.length bl =
      (writeLoop S.strip_size S.stripes bl
        (file_to_extents off bl.length S.strip_size) 0
        (if S.max_size < bl.length + off
         then resizeBits S.bits ((bl.length + off) / S.strip_size + 1)
         else S.bits)).map
      (fun p =>
        { strip_size := S.strip_size,
          max_size := if S.max_size < bl.length + off then bl.length + off
            else S.max_size,
          bits := p.2,
          stripes := fun n =>
            match p.1.lookup n with
            | some v => some v
            | none => S.stripes n }) := by
  unfold write
  rw [if_neg (lt_irrefl bl.length)]

theorem write_step (S : ObjState) (c : Nat → Nat) (off : Nat) (bl : List Nat)
    (hs : 0 < S.strip_size) (hinv : StateInv S c) (hblen : BitsLen S) :
    ∃ S2, write S off bl.length bl = .ok S2 ∧
      S2.strip_size = S.strip_size ∧
      S2.max_size = max S.max_size (off + bl.length) ∧
      BitsLen S2 ∧ StateInv S2 (cNew off bl c) := by
  obtain ⟨d1, d2, hr, hr2, c3, hqe⟩ := divFacts off bl.length S.strip_size hs
  have hnos := fte_nos off bl.length S.strip_size hs
  have hnd : ((file_to_extents off bl.length S.strip_size).map
      (fun e => e.no)).Nodup := by
    rw [hnos]
    exact List.nodup_range' _ _
  have hflat0 : (file_to_extents off bl.length S.strip_size).flatMap
      (expand S.strip_size) = List.range' (off + 0) (bl.length - 0) := by
    rw [fte_flatMap off bl.length S.strip_size hs]
    simp
  have hb2get : ∀ n, bitsGet
      (if S.max_size < bl.length + off
       then resizeBits S.bits ((bl.length + off) / S.strip_size + 1)
       else S.bits) n = bitsGet S.bits n := by
    intro n
    by_cases h : S.max_size < bl.length + off
    · rw [if_pos h]
      apply bitsGet_resizeBits_ge
      rcases hblen with hl | ⟨hm0, hb0⟩
      · rw [hl]
        have := Nat.div_le_div_right (c := S.strip_size)
          (show S.max_size ≤ bl.length + off by omega)
        omega
      · rw [hb0]
        simp
    · rw [if_neg h]
  have h5 : ∀ e ∈ file_to_extents off bl.length S.strip_size,
      e.no < (if S.max_size < bl.length + off
        then resizeBits S.bits ((bl.length + off) / S.strip_size + 1)
        else S.bits).length := by
    intro e he
    have hle := fte_no_le off bl.length S.strip_size hs e he
    by_cases h : S.max_size < bl.length + off
    · rw [if_pos h, resizeBits_length]
      have : (off + bl.length) / S.strip_size =
          (bl.length + off) / S.strip_size := by rw [Nat.add_comm]
      omega
    · rw [if_neg h]
      push_neg at h
      rcases hblen with hl | ⟨hm0, hb0⟩
      · rw [hl]
        have := Nat.div_le_div_right (c := S.strip_size)
          (show off + bl.length ≤ S.max_size by omega)
        omega
      · exfalso
        have hlen0 : bl.length = 0 := by omega
        rw [hlen0] at he
        simp [file_to_extents] at he
  obtain ⟨vals, bits3, hwl, hm1, hm2, hm3, hm4⟩ :=
    writeLoop_ok S.strip_size hs c S.stripes bl off bl.length (le_refl _)
      (file_to_extents off bl.length S.strip_size) 0
      (if S.max_size < bl.length + off
       then resizeBits S.bits ((bl.length + off) / S.strip_size + 1)
       else S.bits) hflat0
      (Nat.zero_le _) hnd (fte_bounds off bl.length S.strip_size hs) h5
      (fun e _ hb => hinv.1 e.no (by rw [← hb2get e.no]; exact hb))
      (fun e _ hb => hinv.2 e.no (by rw [← hb2get e.no]; exact hb))
  have hanymem : ∀ n,
      ((file_to_extents off bl.length S.strip_size).any
        (fun x => x.no == n)) = true ↔
      n ∈ (file_to_extents off bl.length S.strip_size).map
        (fun e => e.no) := by
    intro n
    simp [List.any_eq_true, List.mem_map]
  have hdisj : ∀ n,
      ((file_to_extents off bl.length S.strip_size).any
        (fun x => x.no == n)) = false →
      ∀ j, j < S.strip_size → cNew off bl c (n * S.strip_size + j) =
        c (n * S.strip_size + j) := by
    intro n hany j hj
    rw [cNew]
    rw [if_neg ?_]
    rintro ⟨hp1, hp2⟩
    have hmem : n * S.strip_size + j ∈
        (file_to_extents off bl.length S.strip_size).flatMap
          (expand S.strip_size) := by
      rw [fte_flatMap off bl.length S.strip_size hs, mem_range1]
      omega
    obtain ⟨e2, he2, hpe2⟩ := List.mem_flatMap.1 hmem
    obtain ⟨hb2, hel2, _⟩ := fte_bounds off bl.length S.strip_size hs e2 he2
    rw [expand, mem_range1] at hpe2
    have hdiv1 : (n * S.strip_size + j) / S.strip_size = n :=
      stripe_of_pos _ n _ hs (by omega) (by omega)
    have hdiv2 : (n * S.strip_size + j) / S.strip_size = e2.no :=
      stripe_of_pos _ e2.no _ hs (by omega) (by omega)
    have : n ∈ (file_to_extents off bl.length S.strip_size).map
        (fun e => e.no) := List.mem_map.2 ⟨e2, he2, by omega⟩
    rw [← hanymem n] at this
    rw [this] at hany
    simp at hany
  refine ⟨ObjState.mk S.strip_size
      (if S.max_size < bl.length + off then bl.length + off else S.max_size)
      bits3
      (fun n =>
        (match vals.lookup n with
        | some v => some v
        | none => S.stripes n)), ?_, rfl, ?_, ?_, ?_⟩
  · rw [write_eq, hwl]
    rfl
  · dsimp only
    rw [Nat.max_def]
    by_cases h1 : S.max_size < bl.length + off
    · rw [if_pos h1, if_pos (by omega)]
      omega
    · rw [if_neg h1]
      split_ifs with h2
      · omega
      · rfl
  · rw [BitsLen]
    dsimp only
    by_cases hg : S.max_size < bl.length + off
    · left
      rw [hm2, if_pos hg, resizeBits_length, if_pos hg]
    · have hb3 : bits3.length = S.bits.length := by
        rw [hm2, if_neg hg]
      rw [if_neg hg]
      rcases hblen with hl | ⟨hm0, hb0⟩
      · left
        rw [hb3, hl]
      · right
        refine ⟨hm0, List.eq_nil_of_length_eq_zero ?_⟩
        rw [hb3, hb0]
        rfl
  · constructor
    · intro n hb
      dsimp only at hb ⊢
      rw [hm3 n] at hb
      rcases Bool.or_eq_true_iff.1 hb with hb2 | hany
      · by_cases hcov : ((file_to_extents off bl.length S.strip_size).any
            (fun x => x.no == n)) = true
        · obtain ⟨v, hv⟩ := lookup_isSome_of_mem_fst vals n
            (by rw [hm1]; exact (hanymem n).1 hcov)
          obtain ⟨hvl, hvb⟩ := hm4 (n, v) (mem_of_lookup vals n v hv)
          refine ⟨v, by rw [hv], hvl, ?_⟩
          intro j hj
          rw [cNew]
          exact hvb j hj
        · have hlk : vals.lookup n = none := by
            apply lookup_eq_none_of_not_mem_fst
            rw [hm1]
            intro hmem
            exact hcov ((hanymem n).2 hmem)
          obtain ⟨v, hv, hvl, hvb⟩ := hinv.1 n (by rw [← hb2get n]; exact hb2)
          refine ⟨v, by rw [hlk]; exact hv, hvl, ?_⟩
          intro j hj
          rw [hdisj n (Bool.not_eq_true _ ▸ hcov) j hj]
          exact hvb j hj
      · obtain ⟨v, hv⟩ := lookup_isSome_of_mem_fst vals n
          (by rw [hm1]; exact (hanymem n).1 hany)
        obtain ⟨hvl, hvb⟩ := hm4 (n, v) (mem_of_lookup vals n v hv)
        refine ⟨v, by rw [hv], hvl, ?_⟩
        intro j hj
        rw [cNew]
        exact hvb j hj
    · intro n hb j hj
      dsimp only at hb hj ⊢
      rw [hm3 n] at hb
      have hsplit := Bool.or_eq_false_iff.1 hb
      rw [hdisj n hsplit.2 j hj]
      exact hinv.2 n (by rw [← hb2get n]; exact hsplit.1) j hj

/-! ### Replay semantics over a whole write history -/

theorem replay_step (ws : List (Nat × List Nat)) (w : Nat × List Nat)
    (p : Nat) :
    replayByte (ws ++ [w]) p = cNew w.1 w.2 (replayByte ws) p := by
  simp only [replayByte, cNew, List.foldl_append, List.foldl_cons,
    List.foldl_nil]

theorem maxEnd_append (ws : List (Nat × List Nat)) (w : Nat × List Nat) :
    maxEnd (ws ++ [w]) = max (maxEnd ws) (w.1 + w.2.length) := by
  simp only [maxEnd, List.foldl_append, List.foldl_cons, List.foldl_nil]

theorem applyWrites_append (s : Nat) (ws : List (Nat × List Nat))
    (w : Nat × List Nat) :
    applyWrites s (ws ++ [w]) =
      (applyWrites s ws).bind (fun S => write S w.1 w.2.length w.2) := by
  simp only [applyWrites, List.foldl_append, List.foldl_cons, List.foldl_nil]

/-- Every sequence of committed writes succeeds, and the resulting state
satisfies the stripe-content invariant for the replayed byte stream. -/
theorem applyWrites_ok (s : Nat) (hs : 0 < s) (ws : List (Nat × List Nat)) :
    ∃ S, applyWrites s ws = .ok S ∧ S.strip_size = s ∧
      S.max_size = maxEnd ws ∧ BitsLen S ∧ StateInv S (replayByte ws) := by
  induction ws using List.reverseRecOn with
  | nil =>
    refine ⟨freshObj s, rfl, rfl, rfl, Or.inr ⟨rfl, rfl⟩, ?_, ?_⟩
    · intro n hb
      simp [freshObj, bitsGet] at hb
    · intro n _ j _
      rfl
  | append_singleton ws w ih =>
    obtain ⟨S, hok, hss, hmax, hblen, hinv⟩ := ih
    obtain ⟨S2, hw2, hss2, hmax2, hblen2, hinv2⟩ :=
      write_step S (replayByte ws) w.1 w.2 (by rw [hss]; exact hs) hinv hblen
    refine ⟨S2, ?_, by rw [hss2, hss], ?_, hblen2, ?_⟩
    · rw [applyWrites_append, hok]
      simpa using hw2
    · rw [hmax2, hmax, maxEnd_append]
    · have hfun : cNew w.1 w.2 (replayByte ws) = replayByte (ws ++ [w]) :=
        funext (fun p => (replay_step ws w p).symm)
      rw [← hfun]
      exact hinv2

/-! ### Reading back the whole object -/

theorem val_eq_map (v : List Nat) (a k : Nat) (c : Nat → Nat)
    (hl : v.length = k) (hb : ∀ j, j < k → v.getD j 0 = c (a + j)) :
    v = (List.range' a k).map c := by
  apply List.ext_getElem
  · simp [hl]
  · intro i h1 h2
    have hik : i < k := by simpa [hl] using h1
    have hv := hb i hik
    rw [List.getD_eq_getElem?_getD, List.getElem?_eq_getElem h1] at hv
    simp only [Option.getD_some] at hv
    rw [hv]
    simp

theorem map_eq_replicate (a k : Nat) (c : Nat → Nat)
    (h : ∀ j, j < k → c (a + j) = 0) :
    (List.range' a k).map c = List.replicate k 0 := by
  rw [List.eq_replicate_iff]
  constructor
  · simp
  · intro x hx
    obtain ⟨p, hp, rfl⟩ := List.mem_map.1 hx
    obtain ⟨h1, h2⟩ := mem_range1.1 hp
    have hc := h (p - a) (by omega)
    rw [show a + (p - a) = p by omega] at hc
    exact hc

theorem take_range1 (a n m : Nat) (h : m ≤ n) :
    (List.range' a n).take m = List.range' a m := by
  apply List.ext_getElem
  · simp
    omega
  · intro i h1 h2
    rw [List.getElem_take]
    simp

/-- One stripe worth of read output equals the content map over its
positions, whichever way the presence bit points. -/
theorem stripe_out_eq (S : ObjState) (c : Nat → Nat) (hinv : StateInv S c)
    (n : Nat) :
    (if bitsGet S.bits n then (S.stripes n).getD []
     else List.replicate S.strip_size 0) =
      (List.range' (n * S.strip_size) S.strip_size).map c := by
  by_cases hb : bitsGet S.bits n
  · rw [if_pos hb]
    obtain ⟨v, hv, hvl, hvb⟩ := hinv.1 n hb
    rw [hv, Option.getD_some]
    exact val_eq_map v _ _ c hvl hvb
  · rw [if_neg hb]
    exact (map_eq_replicate _ _ c
      (hinv.2 n (by simpa using hb))).symm

theorem readLoop_middles (S : ObjState) (c : Nat → Nat)
    (hs : 0 < S.strip_size) (hinv : StateInv S c) (k : Nat) :
    ∀ (i : Nat) (tl : List StripExtent),
      i + k ≤ S.max_size / S.strip_size →
      readLoop S ((List.range' i k).map
          (fun n => ⟨n, 0, S.strip_size⟩) ++ tl) (i * S.strip_size) =
        (List.range' (i * S.strip_size) (k * S.strip_size)).map c ++
          readLoop S tl ((i + k) * S.strip_size) := by
  induction k with
  | zero =>
    intro i tl _
    simp
  | succ k ih =>
    intro i tl h
    rw [List.range'_succ, List.map_cons, List.cons_append]
    have hmul : (i + 1) * S.strip_size = i * S.strip_size + S.strip_size := by
      rw [Nat.add_mul, Nat.one_mul]
    have hcond : ¬ (S.max_size < i * S.strip_size + S.strip_size) := by
      have h1 : i + 1 ≤ S.max_size / S.strip_size := by omega
      rw [Nat.le_div_iff_mul_le hs] at h1
      omega
    rw [readLoop, if_neg hcond]
    have hrec := ih (i + 1) tl (by omega)
    rw [hmul] at hrec
    rw [hrec]
    have hout := stripe_out_eq S c hinv i
    dsimp only at hout ⊢
    rw [hout, ← List.append_assoc, ← List.map_append, List.range'_append_1]
    rw [show (k + 1) * S.strip_size = k * S.strip_size + S.strip_size from by
      rw [Nat.add_mul, Nat.one_mul]]
    rw [show i + 1 + k = i + (k + 1) from by omega]

/-- Reading the whole range [0, max_size) of a state satisfying the stripe
invariant returns exactly the content bytes. -/
theorem read_whole (S : ObjState) (c : Nat → Nat) (hs : 0 < S.strip_size)
    (hinv : StateInv S c) :
    generic_read S 0 0 = .ok ((List.range S.max_size).map c) := by
  have hd : S.max_size / S.strip_size * S.strip_size + S.max_size %
      S.strip_size = S.max_size := by
    have h1 := Nat.div_add_mod S.max_size S.strip_size
    have h2 : S.strip_size * (S.max_size / S.strip_size) =
        S.max_size / S.strip_size * S.strip_size := Nat.mul_comm _ _
    omega
  have hmodlt : S.max_size % S.strip_size < S.strip_size :=
    Nat.mod_lt _ hs
  have herr : ((file_to_extents 0 S.max_size S.strip_size).any (fun e =>
      bitsGet S.bits e.no && (S.stripes e.no).isNone)) = false := by
    rw [List.any_eq_false]
    intro e _
    by_cases hb : bitsGet S.bits e.no
    · obtain ⟨v, hv, _, _⟩ := hinv.1 e.no hb
      simp [hb, hv]
    · simp [hb]
  unfold generic_read
  rw [if_neg (Nat.not_lt_zero _), if_pos rfl]
  simp only [Nat.sub_zero, Nat.zero_add]
  rw [if_neg (lt_irrefl _), herr]
  simp only [Bool.false_eq_true, if_false]
  by_cases hm : S.max_size = 0
  · rw [hm]
    simp [file_to_extents, readLoop]
  · rw [fte_aligned 0 S.max_size S.strip_size hs hm (Nat.zero_mod _)]
    simp only [Nat.zero_div, Nat.zero_add, Nat.sub_zero]
    have hmid := readLoop_middles S c hs hinv (S.max_size / S.strip_size) 0
      (if S.max_size % S.strip_size ≠ 0 then
        [⟨S.max_size / S.strip_size, 0, S.max_size % S.strip_size⟩]
       else []) (by omega)
    rw [Nat.zero_mul, Nat.zero_add] at hmid
    rw [hmid]
    by_cases hz : S.max_size % S.strip_size = 0
    · rw [if_neg (by simpa using hz)]
      rw [readLoop, List.append_nil]
      rw [show S.max_size / S.strip_size * S.strip_size = S.max_size from by
        omega]
      rw [List.range_eq_range']
    · rw [if_pos (by simpa using hz)]
      rw [readLoop]
      rw [if_pos (by omega)]
      have hout : (if bitsGet S.bits (S.max_size / S.strip_size) then
          ((S.stripes (S.max_size / S.strip_size)).getD []).take
            (S.max_size % S.strip_size)
          else List.replicate (S.max_size % S.strip_size) 0) =
          (List.range' (S.max_size / S.strip_size * S.strip_size)
            (S.max_size % S.strip_size)).map c := by
        by_cases hb : bitsGet S.bits (S.max_size / S.strip_size)
        · rw [if_pos hb]
          obtain ⟨v, hv, hvl, hvb⟩ := hinv.1 _ hb
          rw [hv, Option.getD_some,
            val_eq_map v (S.max_size / S.strip_size * S.strip_size)
              S.strip_size c hvl hvb,
            ← List.map_take, take_range1 _ _ _ (by omega)]
        · rw [if_neg hb]
          exact (map_eq_replicate _ _ c
            (fun j hj => hinv.2 _ (by simpa using hb) j (by omega))).symm
      dsimp only
      have happ : List.range' 0
            (S.max_size / S.strip_size * S.strip_size) ++
          List.range' (S.max_size / S.strip_size * S.strip_size)
            (S.max_size % S.strip_size) = List.range' 0 S.max_size := by
        have h1 := List.range'_append_1 0
          (S.max_size / S.strip_size * S.strip_size)
          (S.max_size % S.strip_size)
        rw [Nat.zero_add] at h1
        rw [h1]
        congr 1
        omega
      rw [hout, ← List.map_append, happ, List.range_eq_range']

/-- Claim C1: replaying any sequence of committed writes and then reading the
whole range [0, max_size) returns exactly the bytes obtained by replaying
those writes in order onto an all-zero stream, holes reading as zero. -/
theorem C1_writes_then_read_whole (s : Nat) (ws : List (Nat × List Nat))
    (hs : 0 < s) :
    ∃ S, applyWrites s ws = .ok S ∧ S.max_size = maxEnd ws ∧
      generic_read S 0 0 =
        .ok ((List.range (maxEnd ws)).map (replayByte ws)) := by
  obtain ⟨S, hok, hss, hmax, hblen, hinv⟩ := applyWrites_ok s hs ws
  refine ⟨S, hok, hmax, ?_⟩
  rw [read_whole S (replayByte ws) (by rw [hss]; exact hs) hinv, hmax]

/-! ### Shape facts for claim C9 -/

/-- Every extent after the first starts at intra-stripe offset 0. -/
theorem fte_drop_offset (o l s : Nat) (hs : 0 < s) :
    ∀ e ∈ (file_to_extents o l s).drop 1, e.offset = 0 := by
  intro e he
  by_cases hl : l = 0
  · subst hl
    simp [file_to_extents] at he
  by_cases h1 : o % s = 0
  · rw [fte_aligned o l s hs hl h1] at he
    have hmem := List.drop_subset 1 _ he
    rcases List.mem_append.1 hmem with hm | ht
    · obtain ⟨n, _, rfl⟩ := List.mem_map.1 hm
      rfl
    · split_ifs at ht with hz
      · obtain rfl := List.mem_singleton.1 ht
        rfl
      · simp at ht
  · by_cases h2 : o % s + l ≤ s
    · rw [fte_inner o l s hs hl h1 h2] at he
      simp at he
    · rw [fte_spill o l s hs hl h1 (by omega)] at he
      rw [List.drop_one, List.tail_cons] at he
      rcases List.mem_append.1 he with hm | ht
      · obtain ⟨n, _, rfl⟩ := List.mem_map.1 hm
        rfl
      · split_ifs at ht with hz
        · obtain rfl := List.mem_singleton.1 ht
          rfl
        · simp at ht

theorem dropLast_drop_one {α : Type} (l : List α) :
    (l.drop 1).dropLast = l.dropLast.drop 1 := by
  cases l with
  | nil => rfl
  | cons a l2 =>
    cases l2 with
    | nil => rfl
    | cons b l3 => rfl

/-- Every extent that is neither first nor last is one whole stripe. -/
theorem fte_middle_full (o l s : Nat) (hs : 0 < s) :
    ∀ e ∈ ((file_to_extents o l s).drop 1).dropLast,
      e.offset = 0 ∧ e.len = s := by
  intro e he
  by_cases hl : l = 0
  · subst hl
    simp [file_to_extents] at he
  by_cases h1 : o % s = 0
  · rw [fte_aligned o l s hs hl h1] at he
    split_ifs at he with hz
    · rw [dropLast_drop_one, List.dropLast_concat] at he
      obtain ⟨n, _, rfl⟩ := List.mem_map.1 (List.drop_subset 1 _ he)
      exact ⟨rfl, rfl⟩
    · rw [List.append_nil] at he
      obtain ⟨n, _, rfl⟩ := List.mem_map.1
        (List.drop_subset 1 _ (List.dropLast_subset _ he))
      exact ⟨rfl, rfl⟩
  · by_cases h2 : o % s + l ≤ s
    · rw [fte_inner o l s hs hl h1 h2] at he
      simp at he
    · rw [fte_spill o l s hs hl h1 (by omega)] at he
      rw [List.drop_one, List.tail_cons] at he
      split_ifs at he with hz
      · rw [List.dropLast_concat] at he
        obtain ⟨n, _, rfl⟩ := List.mem_map.1 he
        exact ⟨rfl, rfl⟩
      · rw [List.append_nil] at he
        obtain ⟨n, _, rfl⟩ := List.mem_map.1 (List.dropLast_subset _ he)
        exact ⟨rfl, rfl⟩

/-- Claim C9: for every offset, len and strip_size, file_to_extents emits
nothing when len = 0; for len > 0 it produces a nonempty ordered plan of
(stripe, intra-stripe offset, length) triples whose expanded positions are
exactly [offset, offset + len) in order, whose lengths sum to len, in which
only the first extent may start mid-stripe, and in which every extent other
than the first and the last is one full stripe. -/
theorem fte_sum (offset len strip_size : Nat) (hs : 0 < strip_size) :
    ((file_to_extents offset len strip_size).map (fun e => e.len)).sum =
      len := by
  have hflat := fte_flatMap offset len strip_size hs
  have hlen := congrArg List.length hflat
  rw [List.length_range'] at hlen
  rw [List.flatMap, List.length_flatten, List.map_map] at hlen
  have hco : (List.length ∘ expand strip_size) =
      (fun e : StripExtent => e.len) := by
    funext e
    simp [expand]
  rw [hco] at hlen
  exact hlen

theorem C9_file_to_extents_plan (offset len strip_size : Nat)
    (hs : 0 < strip_size) :
    (len = 0 → file_to_extents offset len strip_size = []) ∧
    (0 < len →
      file_to_extents offset len strip_size ≠ [] ∧
      (file_to_extents offset len strip_size).flatMap (expand strip_size) =
        List.range' offset len ∧
      ((file_to_extents offset len strip_size).map (fun e => e.len)).sum =
        len ∧
      (∀ e ∈ (file_to_extents offset len strip_size).drop 1,
        e.offset = 0) ∧
      (∀ e ∈ ((file_to_extents offset len strip_size).drop 1).dropLast,
        e.offset = 0 ∧ e.len = strip_size)) := by
  refine ⟨fun h => by simp [file_to_extents, h], fun hpos => ?_⟩
  have hflat := fte_flatMap offset len strip_size hs
  refine ⟨?_, hflat, fte_sum offset len strip_size hs,
    fte_drop_offset offset len strip_size hs,
    fte_middle_full offset len strip_size hs⟩
  intro hnil
  rw [hnil] at hflat
  have : (List.range' offset len).length = 0 := by rw [← hflat]; rfl
  rw [List.length_range'] at this
  omega

/-- Witness for C9 at offset 3, len 8, strip_size 4 (plan
[(0,3,1),(1,0,4),(2,0,3)]). -/
theorem C9_file_to_extents_plan_witness :
    (0 : Nat) < 4 ∧
    ((8 = 0 → file_to_extents 3 8 4 = []) ∧
     (0 < 8 →
       file_to_extents 3 8 4 ≠ [] ∧
       (file_to_extents 3 8 4).flatMap (expand 4) = List.range' 3 8 ∧
       ((file_to_extents 3 8 4).map (fun e => e.len)).sum = 8 ∧
       (∀ e ∈ (file_to_extents 3 8 4).drop 1, e.offset = 0) ∧
       (∀ e ∈ ((file_to_extents 3 8 4).drop 1).dropLast,
         e.offset = 0 ∧ e.len = 4))) :=
  ⟨by decide, C9_file_to_extents_plan 3 8 4 (by decide)⟩

/-! ### Read return-size analysis for claim C2 -/

/-- The part of the stripe invariant the read path needs: a set bit stores
one value of exactly strip_size bytes. -/
def StripesPresent (S : ObjState) : Prop :=
  ∀ n, bitsGet S.bits n = true → ∃ v, S.stripes n = some v ∧
    v.length = S.strip_size

theorem sum_le_length_mul (l : List Nat) (m : Nat) (h : ∀ x ∈ l, x ≤ m) :
    l.sum ≤ l.length * m := by
  induction l with
  | nil => simp
  | cons a rest ih =>
    rw [List.sum_cons, List.length_cons, Nat.add_mul, Nat.one_mul]
    have h1 := h a (List.mem_cons_self a rest)
    have h2 := ih (fun x hx => h x (List.mem_cons_of_mem _ hx))
    omega

theorem readLoop_length (S : ObjState) (hs : 0 < S.strip_size)
    (hp : StripesPresent S) :
    ∀ (es : List StripExtent) (i : Nat),
    (∀ e ∈ es, e.len ≤ S.strip_size) →
    (readLoop S es (i * S.strip_size)).length =
      (if es.length + i ≤ S.max_size / S.strip_size then
        es.length * S.strip_size
       else (S.max_size / S.strip_size - i) * S.strip_size +
        (es.getD (S.max_size / S.strip_size - i) ⟨0, 0, 0⟩).len) := by
  have hd : S.max_size / S.strip_size * S.strip_size +
      S.max_size % S.strip_size = S.max_size := by
    have h1 := Nat.div_add_mod S.max_size S.strip_size
    have h2 : S.strip_size * (S.max_size / S.strip_size) =
        S.max_size / S.strip_size * S.strip_size := Nat.mul_comm _ _
    omega
  have hmod : S.max_size % S.strip_size < S.strip_size := Nat.mod_lt _ hs
  intro es
  induction es with
  | nil =>
    intro i _
    simp only [readLoop, List.length_nil]
    by_cases h : 0 + i ≤ S.max_size / S.strip_size
    · rw [if_pos h]
      simp
    · rw [if_neg h]
      have h0 : S.max_size / S.strip_size - i = 0 := by omega
      rw [h0]
      simp
  | cons e rest ih =>
    intro i hb
    have hbreak : S.max_size < i * S.strip_size + S.strip_size ↔
        S.max_size / S.strip_size ≤ i := by
      constructor
      · intro h
        by_contra hcon
        push_neg at hcon
        rw [Nat.lt_iff_add_one_le, Nat.le_div_iff_mul_le hs,
          Nat.add_mul, Nat.one_mul] at hcon
        omega
      · intro h
        have h2 : S.max_size / S.strip_size * S.strip_size ≤
            i * S.strip_size := Nat.mul_le_mul_right _ h
        omega
    rw [readLoop]
    by_cases hc : S.max_size < i * S.strip_size + S.strip_size
    · rw [if_pos hc]
      rw [hbreak] at hc
      rw [if_neg (show ¬ ((e :: rest).length + i ≤
        S.max_size / S.strip_size) from by rw [List.length_cons]; omega)]
      have hsub : S.max_size / S.strip_size - i = 0 := by omega
      rw [hsub]
      simp only [Nat.zero_mul, Nat.zero_add, List.getD_cons_zero]
      by_cases hbit : bitsGet S.bits e.no
      · simp only [hbit, if_true]
        obtain ⟨v, hv, hvl⟩ := hp e.no hbit
        rw [hv, Option.getD_some, List.length_take, hvl]
        have := hb e (List.mem_cons_self e rest)
        omega
      · simp only [hbit, Bool.false_eq_true, if_false, List.length_replicate]
    · rw [if_neg hc]
      rw [List.length_append]
      have hcontrib : (if bitsGet S.bits e.no then (S.stripes e.no).getD []
          else List.replicate S.strip_size 0).length = S.strip_size := by
        by_cases hbit : bitsGet S.bits e.no
        · simp only [hbit, if_true]
          obtain ⟨v, hv, hvl⟩ := hp e.no hbit
          rw [hv, Option.getD_some, hvl]
        · simp only [hbit, Bool.false_eq_true, if_false,
            List.length_replicate]
      rw [hcontrib]
      rw [hbreak] at hc
      push_neg at hc
      have hmul : (i + 1) * S.strip_size = i * S.strip_size + S.strip_size := by
        rw [Nat.add_mul, Nat.one_mul]
      have hrec := ih (i + 1) (fun x hx => hb x (List.mem_cons_of_mem _ hx))
      rw [hmul] at hrec
      rw [hrec]
      by_cases h2 : rest.length + (i + 1) ≤ S.max_size / S.strip_size
      · rw [if_pos h2, if_pos (show (e :: rest).length + i ≤
          S.max_size / S.strip_size from by rw [List.length_cons]; omega)]
        rw [List.length_cons, Nat.add_mul, Nat.one_mul]
        omega
      · rw [if_neg h2, if_neg (show ¬ ((e :: rest).length + i ≤
          S.max_size / S.strip_size) from by rw [List.length_cons]; omega)]
        have hstep : (S.max_size / S.strip_size - i) * S.strip_size =
            (S.max_size / S.strip_size - (i + 1)) * S.strip_size +
              S.strip_size := by
          rw [show S.max_size / S.strip_size - i =
            (S.max_size / S.strip_size - (i + 1)) + 1 from by omega,
            Nat.add_mul, Nat.one_mul]
        rw [hstep]
        rw [show S.max_size / S.strip_size - i =
          (S.max_size / S.strip_size - (i + 1)) + 1 from by omega]
        rw [List.getD_cons_succ]
        omega

/-- With every set bit backed by a stored stripe, the missing-value check of
_generic_read never fires. -/
theorem read_err_false (S : ObjState) (hp : StripesPresent S)
    (es : List StripExtent) :
    (es.any (fun e => bitsGet S.bits e.no && (S.stripes e.no).isNone)) =
      false := by
  rw [List.any_eq_false]
  intro e _
  by_cases hb : bitsGet S.bits e.no
  · obtain ⟨v, hv, _⟩ := hp e.no hb
    simp [hb, hv]
  · simp [hb]

/-- Claim C2 (amended): a read on an existing object fails with EINVAL
exactly for offset > max_size; otherwise it succeeds, and each planned
extent before the one at which readed + strip_size first exceeds max_size
contributes one whole stripe (strip_size bytes) regardless of being partial,
while that breaking extent contributes only its own sub-range length; the
returned byte count therefore follows the closed form below and can exceed
the clamped length. -/
theorem C2_read_return (S : ObjState) (offset len0 : Nat)
    (hs : 0 < S.strip_size) (hp : StripesPresent S) :
    (S.max_size < offset → generic_read S offset len0 = .error (-22)) ∧
    (offset ≤ S.max_size →
      ∀ len, len = (if S.max_size < offset +
            (if len0 = 0 then S.max_size - offset else len0)
          then S.max_size - offset
          else (if len0 = 0 then S.max_size - offset else len0)) →
      ∀ es, es = file_to_extents offset len S.strip_size →
      ∃ out, generic_read S offset len0 = .ok out ∧
        out.length =
          (if es.length ≤ S.max_size / S.strip_size
           then es.length * S.strip_size
           else S.max_size / S.strip_size * S.strip_size +
             (es.getD (S.max_size / S.strip_size) ⟨0, 0, 0⟩).len)) := by
  constructor
  · intro h
    unfold generic_read
    rw [if_pos h]
  · intro hle len hlen es hes
    unfold generic_read
    rw [if_neg (by omega)]
    dsimp only
    rw [read_err_false S hp]
    simp only [Bool.false_eq_true, if_false]
    refine ⟨_, rfl, ?_⟩
    have hbound : ∀ e ∈ file_to_extents offset
        (if S.max_size < offset +
            (if len0 = 0 then S.max_size - offset else len0)
          then S.max_size - offset
          else (if len0 = 0 then S.max_size - offset else len0))
        S.strip_size, e.len ≤ S.strip_size := by
      intro e he
      have := fte_bounds offset _ S.strip_size hs e he
      omega
    have hrl := readLoop_length S hs hp (file_to_extents offset
        (if S.max_size < offset +
            (if len0 = 0 then S.max_size - offset else len0)
          then S.max_size - offset
          else (if len0 = 0 then S.max_size - offset else len0))
        S.strip_size) 0 hbound
    rw [Nat.zero_mul, Nat.add_zero, Nat.sub_zero] at hrl
    rw [hes, hlen]
    exact hrl

/-- Counterexample for C2 as stated: on an object holding 8 bytes across two
stripes of size 4, read(0, 2) returns the whole first stripe, 4 bytes, not
the 2 requested (the clamped length is 2). -/
theorem C2_read_return_cex :
    (applyWrites 4 [(0, [65, 65, 65, 65, 66, 66, 66, 66])]).bind
      (fun S => generic_read S 0 2) = .ok [65, 65, 65, 65] ∧
    ¬ ((4 : Nat) = 2) := ⟨rfl, by decide⟩

/-- Witness for the amended C2 on a concrete state: strip_size 4, max_size 6,
read(1, 2) plans one partial extent and returns 4 bytes. -/
theorem C2_read_return_witness :
    ((⟨4, 6, [true, true], fun _ =>
        some [65, 66, 67, 68]⟩ : ObjState).max_size < 1 →
      generic_read ⟨4, 6, [true, true], fun _ =>
        some [65, 66, 67, 68]⟩ 1 2 = .error (-22)) ∧
    (1 ≤ (⟨4, 6, [true, true], fun _ =>
        some [65, 66, 67, 68]⟩ : ObjState).max_size →
      ∀ len, len = (if (6 : Nat) < 1 + (if (2 : Nat) = 0 then 6 - 1 else 2)
          then 6 - 1 else (if (2 : Nat) = 0 then 6 - 1 else 2)) →
      ∀ es, es = file_to_extents 1 len 4 →
      ∃ out, generic_read ⟨4, 6, [true, true], fun _ =>
          some [65, 66, 67, 68]⟩ 1 2 = .ok out ∧
        out.length = (if es.length ≤ 6 / 4 then es.length * 4
          else 6 / 4 * 4 + (es.getD (6 / 4) ⟨0, 0, 0⟩).len)) :=
  C2_read_return ⟨4, 6, [true, true], fun _ => some [65, 66, 67, 68]⟩ 1 2
    (by decide) (fun n _ => ⟨[65, 66, 67, 68], rfl, rfl⟩)

/-! ### Bits-length law (claim C5) and the truncate boundary slip (C3) -/

theorem writeLoop_bits_len (s : Nat) (stripes : Nat → Option (List Nat))
    (bl : List Nat) :
    ∀ (es : List StripExtent) (blo : Nat) (bits : List Bool)
      (vals : List (Nat × List Nat)) (bits3 : List Bool),
    writeLoop s stripes bl es blo bits = .ok (vals, bits3) →
    bits3.length = bits.length := by
  intro es
  induction es with
  | nil =>
    intro blo bits vals bits3 h
    simp only [writeLoop, Except.ok.injEq] at h
    cases h
    rfl
  | cons e rest ih =>
    intro blo bits vals bits3 h
    rw [writeLoop] at h
    by_cases hbit : bitsGet bits e.no
    · rw [if_pos hbit] at h
      by_cases hfull : e.offset = 0 ∧ e.len = s
      · rw [if_pos hfull] at h
        cases hwl : writeLoop s stripes bl rest (blo + e.len) bits with
        | error er => rw [hwl] at h; simp [Except.map] at h
        | ok p =>
          rw [hwl] at h
          simp only [Except.map, Except.ok.injEq, Prod.mk.injEq] at h
          have hrec := ih (blo + e.len) bits p.1 p.2 (by rw [hwl])
          rw [← h.2]
          exact hrec
      · rw [if_neg hfull] at h
        cases hst : stripes e.no with
        | none => rw [hst] at h; simp at h
        | some old =>
          rw [hst] at h
          cases hwl : writeLoop s stripes bl rest (blo + e.len) bits with
          | error er => rw [hwl] at h; simp [Except.map] at h
          | ok p =>
            rw [hwl] at h
            simp only [Except.map, Except.ok.injEq, Prod.mk.injEq] at h
            have hrec := ih (blo + e.len) bits p.1 p.2 (by rw [hwl])
            rw [← h.2]
            exact hrec
    · rw [if_neg hbit] at h
      cases hwl : writeLoop s stripes bl rest (blo + e.len)
          (bits.set e.no true) with
      | error er => rw [hwl] at h; simp [Except.map] at h
      | ok p =>
        rw [hwl] at h
        simp only [Except.map, Except.ok.injEq, Prod.mk.injEq] at h
        have hrec := ih (blo + e.len) (bits.set e.no true) p.1 p.2
          (by rw [hwl])
        rw [← h.2, hrec, List.length_set]

/-- Claim C5 (amended): writes and truncates maintain
bits.length = max_size / strip_size + 1 with floor division: a write that
grows max_size establishes it outright, any other write preserves it; a
truncate to a different size establishes it outright, a truncate to the
current size preserves it. -/
theorem C5_bits_length (S : ObjState) (hs : 0 < S.strip_size) :
    (∀ (off : Nat) (bl : List Nat) S2,
      write S off bl.length bl = .ok S2 →
      (S.bits.length = S.max_size / S.strip_size + 1 ∨
        S.max_size < off + bl.length) →
      S2.bits.length = S2.max_size / S2.strip_size + 1) ∧
    (∀ (n : Nat) S2, truncate S n = .ok S2 →
      (S.bits.length = S.max_size / S.strip_size + 1 ∨ n ≠ S.max_size) →
      S2.bits.length = S2.max_size / S2.strip_size + 1) := by
  constructor
  · intro off bl S2 h hpre
    rw [write_eq] at h
    cases hwl : writeLoop S.strip_size S.stripes bl
        (file_to_extents off bl.length S.strip_size) 0
        (if S.max_size < bl.length + off
         then resizeBits S.bits ((bl.length + off) / S.strip_size + 1)
         else S.bits) with
    | error er => rw [hwl] at h; simp [Except.map] at h
    | ok p =>
      rw [hwl] at h
      simp only [Except.map, Except.ok.injEq] at h
      have hlen := writeLoop_bits_len S.strip_size S.stripes bl _ 0 _ p.1 p.2
        (by rw [hwl])
      rw [← h]
      dsimp only
      by_cases hg : S.max_size < bl.length + off
      · rw [if_pos hg] at hlen ⊢
        rw [hlen, resizeBits_length]
      · rw [if_neg hg] at hlen ⊢
        rw [hlen]
        rcases hpre with hl | hr
        · exact hl
        · omega
  · intro n S2 h hpre
    unfold truncate at h
    by_cases heq : S.max_size = n
    · rw [if_pos heq] at h
      simp only [Except.ok.injEq] at h
      rw [← h]
      rcases hpre with hl | hr
      · rw [hl, heq]
      · exact absurd heq.symm hr
    · rw [if_neg heq] at h
      by_cases hlt : n < S.max_size
      · rw [if_pos hlt] at h
        cases hes : file_to_extents n S.max_size S.strip_size with
        | nil => rw [hes] at h; simp at h
        | cons e0 rest =>
          rw [hes] at h
          dsimp only at h
          by_cases hoff : e0.offset ≠ 0
          · rw [if_pos hoff] at h
            cases hst : S.stripes e0.no with
            | none => rw [hst] at h; simp at h
            | some old =>
              rw [hst] at h
              cases rest with
              | nil => simp at h
              | cons e1 rest2 =>
                simp only [Except.ok.injEq] at h
                rw [← h]
                dsimp only
                rw [resizeBits_length]
          · rw [if_neg hoff] at h
            simp only [Except.ok.injEq] at h
            rw [← h]
            dsimp only
            rw [resizeBits_length]
      · rw [if_neg hlt] at h
        simp only [Except.ok.injEq] at h
        rw [← h]
        dsimp only
        rw [resizeBits_length]

/-- Witness for the amended C5: a growing write on a fresh object of strip
size 4 leaves bits.length = max_size / 4 + 1, and so does a shrinking
truncate. -/
theorem C5_bits_length_witness :
    (∀ (off : Nat) (bl : List Nat) S2,
      write (freshObj 4) off bl.length bl = .ok S2 →
      ((freshObj 4).bits.length =
          (freshObj 4).max_size / (freshObj 4).strip_size + 1 ∨
        (freshObj 4).max_size < off + bl.length) →
      S2.bits.length = S2.max_size / S2.strip_size + 1) ∧
    (∀ (n : Nat) S2, truncate (freshObj 4) n = .ok S2 →
      ((freshObj 4).bits.length =
          (freshObj 4).max_size / (freshObj 4).strip_size + 1 ∨
        n ≠ (freshObj 4).max_size) →
      S2.bits.length = S2.max_size / S2.strip_size + 1) :=
  C5_bits_length (freshObj 4) (by decide)

/-- Counterexample for C5 as stated (ceiling form): after writing 3 bytes
at offset 0 into a fresh object with strip_size 4, bits.length is 1 while
ceil(max_size / strip_size) + 1 = 2. -/
theorem C5_bits_length_cex :
    (applyWrites 4 [(0, [65, 65, 65])]).map
      (fun S => (S.bits.length, (S.max_size + 4 - 1) / 4 + 1)) =
      .ok (1, 2) ∧ ¬ ((1 : Nat) = 2) := ⟨rfl, by decide⟩

/-- Claim C3 evaluated at the specification scenario: write "AAAABBBB" then
truncate to 3. The code leaves the boundary stripe 0 holding its full old
value "AAAA" (the zero-padded prefix was keyed under stripe 1 because the
iterator is advanced before the value is keyed, and that key is then
removed), erases stripe 1, resizes bits to [1] (floor law), sets max_size 3,
and a subsequent read(0,3) returns "AAA". -/
theorem C3_truncate_boundary :
    ((applyWrites 4 [(0, [65, 65, 65, 65, 66, 66, 66, 66])]).bind
      (fun S => truncate S 3)).map
        (fun S => (S.max_size, S.bits, S.stripes 0, S.stripes 1)) =
      .ok (3, [true], some [65, 65, 65, 65], none) ∧
    ((applyWrites 4 [(0, [65, 65, 65, 65, 66, 66, 66, 66])]).bind
      (fun S => truncate S 3)).bind (fun S => generic_read S 0 3) =
      .ok [65, 65, 65] := ⟨rfl, rfl⟩

/-- Witness for C1: one write of "AAAA" at offset 0 with strip size 4. -/
theorem C1_writes_then_read_whole_witness :
    (0 : Nat) < 4 ∧
    (∃ S, applyWrites 4 [(0, [65, 65, 65, 65])] = .ok S ∧
      S.max_size = maxEnd [(0, [65, 65, 65, 65])] ∧
      generic_read S 0 0 =
        .ok ((List.range (maxEnd [(0, [65, 65, 65, 65])])).map
          (replayByte [(0, [65, 65, 65, 65])]))) :=
  ⟨by decide, C1_writes_then_read_whole 4 [(0, [65, 65, 65, 65])] (by decide)⟩

/-! ### Buffered-transaction replay model (claim C4)

A single-object model of _do_transactions over truncate ops: a
BufferTransaction caches the strip header and stages KV mutations in order
(set_keys / rm_keys during the ops, save_strip_header at submit), and
committing applies the staged mutations to the backend state. The header
linkage between the decoder position and the BT (BufferTransaction holds the
decoder-advanced SequencerPosition) is modelled from the spec, as
KeyValueStore.h is not part of the given sources. -/

/-- A committed per-object backend state, header fields plus stripe keys. -/
structure PObj where
  strip_size : Nat
  max_size : Nat
  bits : List Bool
  spos : SPos
  stripes : Nat → Option (List Nat)

/-- A cached StripObjectHeader inside a BufferTransaction, including the
buffers scratch map for stripe keys. -/
structure CHeader where
  strip_size : Nat
  max_size : Nat
  bits : List Bool
  spos : SPos
  deleted : Bool
  buffers : Nat → Option (List Nat)

/-- One staged KV mutation of the transaction handle. -/
inductive TxnOp where
  | setStripe (no : Nat) (v : List Nat)
  | rmStripe (no : Nat)
  | saveHeader (strip_size max_size : Nat) (bits : List Bool) (spos : SPos)
  | clearObj

/-- BufferTransaction state for one object: the cached header, the staged
mutations in staging order, and the decoder-advanced position. -/
structure BTState where
  header : Option CHeader
  txn : List TxnOp
  spos : SPos

/-- BufferTransaction::lookup_cached_header with create_if_missing false:
cache hit unless deleted, else decode the committed header. -/
def lookup_cached_header (committed : Option PObj) (bt : BTState) :
    Except Int (CHeader × BTState) :=
  match bt.header with
  | some h => if h.deleted then .error (-2) else .ok (h, bt)
  | none =>
    match committed with
    | none => .error (-2)
    | some p =>
      let h : CHeader := ⟨p.strip_size, p.max_size, p.bits, p.spos, false,
        fun _ => none⟩
      .ok (h, { bt with header := some h })

/-- BufferTransaction::get_buffer_key: a hit in buffers swaps the stored
value out (the map entry is left holding the now-empty bufferlist), a miss
reads the committed KV. -/
def get_buffer_key (committed : Option PObj) (h : CHeader) (no : Nat) :
    Except Int (List Nat × CHeader) :=
  match h.buffers no with
  | some v => .ok (v, { h with buffers := fun n =>
      if n = no then (some []) else h.buffers n })
  | none =>
    match committed with
    | none => .error (-2)
    | some p =>
      match p.stripes no with
      | none => .error (-2)
      | some v => .ok (v, h)

/-- BufferTransaction::set_buffer_keys: skipped silently when check_spos
says the header already saw this position, otherwise staged into the KV
transaction and mirrored in the buffers cache. -/
def set_buffer_keys (bt : BTState) (h : CHeader)
    (vals : List (Nat × List Nat)) : CHeader × BTState :=
  if check_spos h.spos (some bt.spos) then (h, { bt with header := some h })
  else
    let h2 := { h with buffers := fun n =>
      (match vals.lookup n with
      | some v => some v
      | none => h.buffers n) }
    (h2, { bt with
      header := some h2
      txn := bt.txn ++ vals.map (fun pr => TxnOp.setStripe pr.1 pr.2) })

/-- BufferTransaction::remove_buffer_keys: same guard; empties the buffers
entries and stages the removals. -/
def remove_buffer_keys (bt : BTState) (h : CHeader) (keys : List Nat) :
    CHeader × BTState :=
  if check_spos h.spos (some bt.spos) then (h, { bt with header := some h })
  else
    let h2 := { h with buffers := fun n =>
      if n ∈ keys then some [] else h.buffers n }
    (h2, { bt with
      header := some h2
      txn := bt.txn ++ keys.map TxnOp.rmStripe })

/-- The erase loop of _truncate: collect the keys of remaining extents
whose bit is set and clear those bits. -/
def truncCollect (bits : List Bool) :
    List StripExtent → List Bool × List Nat
  | [] => (bits, [])
  | e :: rest =>
    if bitsGet bits e.no then
      let pr := truncCollect (bits.set e.no false) rest
      (pr.1, e.no :: pr.2)
    else truncCollect bits rest

/-- KeyValueStore::_truncate through the BufferTransaction, staging its KV
mutations: the boundary value is keyed under the next extent stripe (the
iterator is advanced first), the erase loop clears bits and removes keys,
then bits is resized to size / strip_size + 1 and max_size is set. -/
def bt_truncate (committed : Option PObj) (bt : BTState) (size : Nat) :
    Except Int BTState :=
  match lookup_cached_header committed bt with
  | .error e => .error e
  | .ok (h, bt1) =>
    if h.max_size = size then .ok bt1
    else if size < h.max_size then
      match file_to_extents size h.max_size h.strip_size with
      | [] => .error (-22)
      | e0 :: rest =>
        if e0.offset ≠ 0 then
          match get_buffer_key committed h e0.no with
          | .error e => .error e
          | .ok (old, h1) =>
            let value := old.take e0.offset ++
              List.replicate (h1.strip_size - e0.offset) 0
            match rest with
            | [] => .error (-22)
            | e1 :: _ =>
              let pr2 := set_buffer_keys bt1 h1 [(e1.no, value)]
              let pr3 := truncCollect pr2.1.bits rest
              let h3 := { pr2.1 with bits := pr3.1 }
              let pr4 := remove_buffer_keys pr2.2 h3 pr3.2
              let h5 := { pr4.1 with
                bits := resizeBits pr4.1.bits (size / pr4.1.strip_size + 1),
                max_size := size }
              .ok { pr4.2 with header := some h5 }
        else
          let pr3 := truncCollect h.bits (e0 :: rest)
          let h3 := { h with bits := pr3.1 }
          let pr4 := remove_buffer_keys bt1 h3 pr3.2
          let h5 := { pr4.1 with
            bits := resizeBits pr4.1.bits (size / pr4.1.strip_size + 1),
            max_size := size }
          .ok { pr4.2 with header := some h5 }
    else
      let h5 := { h with
        bits := resizeBits h.bits (size / h.strip_size + 1),
        max_size := size }
      .ok { bt1 with header := some h5 }

/-- One decoder step for an OP_TRUNCATE: run the primitive, tolerate ENOENT
as the decoder does, and advance spos.op. -/
def doTruncOp (committed : Option PObj) (bt : BTState) (size : Nat) :
    BTState :=
  match bt_truncate committed bt size with
  | .ok bt2 => { bt2 with spos := ⟨bt2.spos.seq, bt2.spos.trans,
      bt2.spos.op + 1⟩ }
  | .error _ => { bt with spos := ⟨bt.spos.seq, bt.spos.trans,
      bt.spos.op + 1⟩ }

/-- BufferTransaction::submit_transaction on this model: append the header
save unless check_spos skips it or the header is deleted; the staged
mutation list is then applied by the backend. -/
def bt_submit (bt : BTState) : List TxnOp :=
  match bt.header with
  | none => bt.txn
  | some h =>
    if check_spos h.spos (some bt.spos) then bt.txn
    else if h.deleted then bt.txn
    else bt.txn ++ [TxnOp.saveHeader h.strip_size h.max_size h.bits h.spos]

/-- Applying one staged KV mutation to the committed state. -/
def applyTxnOp (st : Option PObj) (op : TxnOp) : Option PObj :=
  match op with
  | .setStripe no v =>
    match st with
    | none => none
    | some p => some { p with stripes := fun n =>
        if n = no then (some v) else p.stripes n }
  | .rmStripe no =>
    match st with
    | none => none
    | some p => some { p with stripes := fun n =>
        if n = no then none else p.stripes n }
  | .saveHeader ss ms bits sp =>
    match st with
    | none => some ⟨ss, ms, bits, sp, fun _ => none⟩
    | some p => some { p with
        strip_size := ss
        max_size := ms
        bits := bits
        spos := sp }
  | .clearObj => none

/-- KeyValueStore::_do_transactions for a transaction list of truncates on
one object: build the BT at (op_seq, 0, 0), decode the ops, submit, and
commit the staged mutations. -/
def execTruncList (committed : Option PObj) (op_seq : Nat)
    (sizes : List Nat) : Option PObj :=
  let btEnd := sizes.foldl (fun bt sz => doTruncOp committed bt sz)
    ⟨none, [], ⟨op_seq, 0, 0⟩⟩
  (bt_submit btEnd).foldl applyTxnOp committed

/-- The committed object the failing input starts from: strip_size 4,
max_size 8, stripes 0 = "AAAA" and 1 = "BBBB" (reachable by committing
write(0, "AAAABBBB")). -/
def C4_S0 : Option PObj :=
  some ⟨4, 8, [true, true, false], ⟨0, 0, 0⟩,
    fun n => if n = 0 then some [65, 65, 65, 65]
      else if n = 1 then some [66, 66, 66, 66] else none⟩

/-- Claim C4 evaluated: check_spos returns true exactly when the probed
position is at most the recorded one (the skip mechanism), yet replay is not
idempotent: executing the transaction list [truncate 3, truncate 8] twice
with op_seq 1 re-creates the stripe-1 key with the zero-padded boundary
value (its erase is guarded by the bit that the first execution already
cleared), while a single execution leaves that key absent. -/
theorem C4_replay_not_idempotent :
    (∀ h sp : SPos, check_spos h (some sp) = sposLeB sp h) ∧
    (execTruncList C4_S0 1 [3, 8]).map (fun p => p.stripes 1) =
      some none ∧
    (execTruncList (execTruncList C4_S0 1 [3, 8]) 1 [3, 8]).map
      (fun p => p.stripes 1) = some (some [65, 65, 65, 0]) ∧
    execTruncList (execTruncList C4_S0 1 [3, 8]) 1 [3, 8] ≠
      execTruncList C4_S0 1 [3, 8] := by
  refine ⟨?_, rfl, rfl, ?_⟩
  · intro h sp
    cases hlt : sposLtB h sp <;> simp [check_spos, sposLeB, hlt]
  · intro hcon
    have h2 := congrArg (Option.map (fun p => p.stripes 1)) hcon
    exact absurd h2 (by decide)

/-! ### submit_transaction control flow (claim C6)

BufferTransaction::submit_transaction, lines 431-456: the save loop over
the cached headers and the final backend submit. The backend call
save_strip_header is abstracted as a function from the header's identity
to its return code, and the instrumented second component records which
headers the loop invoked it on, in order. -/

/-- A cached header entry as submit_transaction reads it: an identifier,
the recorded sequencer position and the deleted flag. -/
structure SHeader where
  id : Nat
  spos : SPos
  deleted : Bool

/-- The save loop of submit_transaction: an entry is skipped when
check_spos returns true or when it is marked deleted, otherwise
save_strip_header runs on it; a negative save result leaves the loop
(goto out) with that result in r. Returns the final r and the ids the
loop invoked the save on. -/
def submitLoop (saveFn : Nat → Int) (spos : SPos) (r : Int) :
    List SHeader → Int × List Nat
  | [] => (r, [])
  | h :: rest =>
    if check_spos h.spos (some spos) then submitLoop saveFn spos r rest
    else if h.deleted then submitLoop saveFn spos r rest
    else
      let r2 := saveFn h.id
      if r2 < 0 then (r2, [h.id])
      else
        let pr := submitLoop saveFn spos r2 rest
        (pr.1, h.id :: pr.2)

/-- BufferTransaction::submit_transaction: run the save loop from r = 0,
then return the backend submit_transaction result; the loop's r is not
consulted at the final return (line 455 returns the backend result in
every case). The second component carries the loop's instrumentation. -/
def submit_transaction (saveFn : Nat → Int) (backendSubmit : Int)
    (spos : SPos) (headers : List SHeader) : Int × List Nat :=
  let pr := submitLoop saveFn spos 0 headers
  (backendSubmit, pr.2)

lemma submitLoop_saved (saveFn : Nat → Int) (spos : SPos)
    (headers : List SHeader) :
    ∀ r : Int, (∀ h ∈ headers, 0 ≤ saveFn h.id) →
      (submitLoop saveFn spos r headers).2 =
        (headers.filter (fun h =>
          !check_spos h.spos (some spos) && !h.deleted)).map SHeader.id := by
  induction headers with
  | nil => intro r _; rfl
  | cons h rest ih =>
    intro r hok
    unfold submitLoop
    by_cases h1 : check_spos h.spos (some spos) = true
    · rw [if_pos h1, List.filter_cons]
      have hc : (!check_spos h.spos (some spos) && !h.deleted) = false := by
        simp [h1]
      rw [hc]
      simp only [Bool.false_eq_true, if_false]
      exact ih r (fun x hx => hok x (List.mem_cons_of_mem _ hx))
    · rw [if_neg h1]
      by_cases h2 : h.deleted = true
      · rw [if_pos h2, List.filter_cons]
        have hc : (!check_spos h.spos (some spos) && !h.deleted) = false := by
          simp [h2]
        rw [hc]
        simp only [Bool.false_eq_true, if_false]
        exact ih r (fun x hx => hok x (List.mem_cons_of_mem _ hx))
      · have hge : 0 ≤ saveFn h.id := hok h (List.mem_cons_self h rest)
        have hns : ¬ saveFn h.id < 0 := Int.not_lt.2 hge
        rw [if_neg h2]
        dsimp only
        rw [if_neg hns, List.filter_cons]
        have hc : (!check_spos h.spos (some spos) && !h.deleted) = true := by
          simp [h1, Bool.of_not_eq_true h2]
        rw [hc]
        simp only [if_true, List.map_cons]
        exact congrArg (fun l => h.id :: l)
          (ih (saveFn h.id) (fun x hx => hok x (List.mem_cons_of_mem _ hx)))

/-- C6 (amended): submit_transaction skips exactly the cached headers that
check_spos skips or that are marked deleted and invokes save_strip_header
on the rest in order (here under the hypothesis that no save fails, which
in this backend is always the case since save_strip_header returns 0);
and its return value is the final backend submit_transaction result in
every case — a failing save would only leave the loop early, its error
code is discarded at the return, not propagated to the caller as the
claim states. -/
theorem C6_submit_transaction (saveFn : Nat → Int) (backendSubmit : Int)
    (spos : SPos) (headers : List SHeader)
    (hok : ∀ h ∈ headers, 0 ≤ saveFn h.id) :
    (submit_transaction saveFn backendSubmit spos headers).1 =
      backendSubmit ∧
    (submit_transaction saveFn backendSubmit spos headers).2 =
      (headers.filter (fun h =>
        !check_spos h.spos (some spos) && !h.deleted)).map SHeader.id :=
  ⟨rfl, submitLoop_saved saveFn spos headers 0 hok⟩

/-- Witness for C6: three headers — one saved, one skipped because its
recorded position is ahead of the probe, one skipped as deleted. -/
theorem C6_submit_transaction_witness :
    (∀ h ∈ ([⟨0, ⟨0, 0, 0⟩, false⟩, ⟨1, ⟨2, 0, 0⟩, false⟩,
        ⟨2, ⟨0, 0, 0⟩, true⟩] : List SHeader),
      (0 : Int) ≤ (fun _ => (0 : Int)) h.id) ∧
    ((submit_transaction (fun _ => (0 : Int)) 7 ⟨1, 0, 0⟩
        [⟨0, ⟨0, 0, 0⟩, false⟩, ⟨1, ⟨2, 0, 0⟩, false⟩,
          ⟨2, ⟨0, 0, 0⟩, true⟩]).1 = 7 ∧
      (submit_transaction (fun _ => (0 : Int)) 7 ⟨1, 0, 0⟩
        [⟨0, ⟨0, 0, 0⟩, false⟩, ⟨1, ⟨2, 0, 0⟩, false⟩,
          ⟨2, ⟨0, 0, 0⟩, true⟩]).2 =
        (([⟨0, ⟨0, 0, 0⟩, false⟩, ⟨1, ⟨2, 0, 0⟩, false⟩,
            ⟨2, ⟨0, 0, 0⟩, true⟩] : List SHeader).filter (fun h =>
          !check_spos h.spos (some ⟨1, 0, 0⟩) && !h.deleted)).map
            SHeader.id) :=
  ⟨by decide, C6_submit_transaction (fun _ => (0 : Int)) 7 ⟨1, 0, 0⟩
    [⟨0, ⟨0, 0, 0⟩, false⟩, ⟨1, ⟨2, 0, 0⟩, false⟩, ⟨2, ⟨0, 0, 0⟩, true⟩]
    (by decide)⟩

/-- Counterexample to C6 as stated: with one live header whose save
returns -5 and a backend submit returning 0, the call returns 0, not the
save failure -5. -/
theorem C6_submit_transaction_cex :
    (submit_transaction (fun _ => (-5 : Int)) 0 ⟨1, 0, 0⟩
      [⟨0, ⟨0, 0, 0⟩, false⟩]).1 = 0 ∧
    ((-5 : Int) < 0 ∧
      (submit_transaction (fun _ => (-5 : Int)) 0 ⟨1, 0, 0⟩
        [⟨0, ⟨0, 0, 0⟩, false⟩]).1 ≠ -5) := by
  decide

/-! ### Decoder error dispatch (claim C7)

The error handler at the bottom of the _do_transaction decoder loop,
lines 1404-1450: a negative handler result is tolerated (ok = true) when
it is -ENOENT and the op is not a clone variant, or when it is -ENODATA;
otherwise the decoder dumps the transaction and hits assert(0). -/

/-- The opcodes the _do_transaction decoder dispatches on. -/
inductive TrOp where
  | nop | touch | write | zero | trimcache | truncate | remove
  | setattr | setattrs | rmattr | rmattrs | clone | clonerange
  | clonerange2 | mkcoll | rmcoll | coll_add | coll_remove | coll_move
  | coll_move_rename | coll_setattr | coll_rmattr | startsync
  | coll_rename | omap_clear | omap_setkeys | omap_rmkeys
  | omap_rmkeyrange | omap_setheader | split_collection
  | split_collection2
  deriving DecidableEq

/-- The ok flag of the decoder's error handler (lines 1405-1414): ENOENT
(-2) is tolerated unless the op is OP_CLONERANGE, OP_CLONE or
OP_CLONERANGE2; ENODATA (-61) is always tolerated. -/
def errTolerated (op : TrOp) (r : Int) : Bool :=
  (r == -2 && !(op == TrOp.clonerange || op == TrOp.clone
    || op == TrOp.clonerange2))
  || r == -61

/-- What the decoder does after a handler result. -/
inductive StepOut where
  | cont
  | abort
  deriving DecidableEq

/-- The r < 0 dispatch of lines 1404-1450: a negative untolerated result
reaches assert(0) (abort), everything else continues to spos.op++. -/
def handle_err (op : TrOp) (r : Int) : StepOut :=
  if r < 0 then
    if errTolerated op r then StepOut.cont else StepOut.abort
  else StepOut.cont

/-- The remove-like opcodes, written from the claim's wording for
comparison with what the code tolerates. -/
def removeLike (op : TrOp) : Bool :=
  op == TrOp.remove || op == TrOp.rmcoll || op == TrOp.rmattr
  || op == TrOp.rmattrs || op == TrOp.coll_remove
  || op == TrOp.coll_rmattr || op == TrOp.omap_clear
  || op == TrOp.omap_rmkeys || op == TrOp.omap_rmkeyrange

lemma errTolerated_iff (op : TrOp) (r : Int) :
    errTolerated op r = true ↔
      ((r = -2 ∧ op ≠ TrOp.clone ∧ op ≠ TrOp.clonerange ∧
        op ≠ TrOp.clonerange2) ∨ r = -61) := by
  unfold errTolerated
  simp only [Bool.or_eq_true, Bool.and_eq_true, beq_iff_eq,
    Bool.not_eq_true', Bool.or_eq_false_iff, beq_eq_false_iff_ne, ne_eq]
  tauto

/-- C7 (amended): the decoder aborts on a handler error exactly when the
error is negative, is not an ENOENT outside the three clone variants, and
is not ENODATA; so ENOENT is silently tolerated on every non-clone op
(not only remove-like ones), ENODATA is always tolerated, and any other
negative result — ENOSPC included — is fatal. -/
theorem C7_decoder_error_dispatch (op : TrOp) (r : Int) :
    handle_err op r = StepOut.abort ↔
      (r < 0 ∧
        ¬ (r = -2 ∧ op ≠ TrOp.clone ∧ op ≠ TrOp.clonerange ∧
          op ≠ TrOp.clonerange2) ∧ r ≠ -61) := by
  unfold handle_err
  by_cases h1 : r < 0
  · rw [if_pos h1]
    by_cases h2 : errTolerated op r = true
    · rw [if_pos h2]
      have hor := (errTolerated_iff op r).1 h2
      constructor
      · intro hc; exact absurd hc (by decide)
      · rintro ⟨-, hn2, hn61⟩
        rcases hor with hA | hB
        · exact absurd hA hn2
        · exact absurd hB hn61
    · rw [if_neg h2]
      constructor
      · intro _
        refine ⟨h1, ?_, ?_⟩
        · intro hA; exact h2 ((errTolerated_iff op r).2 (Or.inl hA))
        · intro hB; exact h2 ((errTolerated_iff op r).2 (Or.inr hB))
      · intro _; rfl
  · rw [if_neg h1]
    constructor
    · intro hc; exact absurd hc (by decide)
    · rintro ⟨hlt, -, -⟩; exact absurd hlt h1

/-- Counterexample to C7 as stated: ENOENT on OP_TRUNCATE — not a
remove-like op — is silently tolerated by the handler. -/
theorem C7_decoder_error_dispatch_cex :
    handle_err TrOp.truncate (-2) = StepOut.cont ∧
    removeLike TrOp.truncate = false := by
  decide

/-! ### _destroy_collection emptiness test (claim C8)

KeyValueStore::_destroy_collection, lines 2298-2348: the cached-header
scan (count modified entries of this collection, ENOTEMPTY at the first
one not marked deleted), the backend listing of up to modified+1 objects,
the two listing checks, and the final clear. Collections and objects are
numbered; the committed objects of the collection are a list as
list_objects returns them. -/

/-- One entry of the BufferTransaction's cached header map, as
_destroy_collection reads it. -/
structure BTEntry where
  cid : Nat
  oid : Nat
  deleted : Bool

/-- The first loop of _destroy_collection (lines 2314-2325): skip entries
of another collection, abort with ENOTEMPTY (-39) at an entry not marked
deleted, count the rest. -/
def countLoop (c : Nat) : List BTEntry → Except Int Nat
  | [] => .ok 0
  | e :: rest =>
    if e.cid ≠ c then countLoop c rest
    else if e.deleted = false then .error (-39)
    else (countLoop c rest).map (fun n => n + 1)

/-- KeyValueStore::_destroy_collection for a found collection header:
count the modified entries, list up to modified+1 committed objects
(list_objects is modelled from the spec: it returns at most that many
objects of the collection), fail with ENOTEMPTY when the listing size
differs from the count while being nonzero or when a listed object has no
cached entry, otherwise clear the collection header (clear_buffer,
returning 0). -/
def destroy_collection (headerFound : Bool) (entries : List BTEntry)
    (kvObjs : List Nat) (c : Nat) : Int :=
  if headerFound = false then -2
  else
    match countLoop c entries with
    | .error e => e
    | .ok modified =>
      let oids := kvObjs.take (modified + 1)
      if oids.length != modified && oids.length != 0 then -39
      else if oids.any (fun o =>
          !(entries.any (fun e2 => e2.cid == c && e2.oid == o))) then -39
      else 0

/-- An entry of the collection not marked deleted exists. -/
def anyLive (c : Nat) (entries : List BTEntry) : Bool :=
  entries.any (fun e => e.cid == c && !e.deleted)

/-- How many cached entries belong to the collection. -/
def entryCount (c : Nat) (entries : List BTEntry) : Nat :=
  (entries.filter (fun e => e.cid == c)).length

lemma countLoop_live (c : Nat) (entries : List BTEntry)
    (h : anyLive c entries = true) :
    countLoop c entries = .error (-39) := by
  induction entries with
  | nil => simp [anyLive] at h
  | cons e rest ih =>
    rw [show anyLive c (e :: rest) =
        ((e.cid == c && !e.deleted) || anyLive c rest) from rfl] at h
    unfold countLoop
    by_cases hc : e.cid = c
    · rw [if_neg (fun hx => hx hc)]
      by_cases hd : e.deleted = false
      · rw [if_pos hd]
      · rw [if_neg hd]
        have hdt : e.deleted = true := Bool.of_not_eq_false hd
        have hrest : anyLive c rest = true := by
          rcases Bool.or_eq_true_iff.1 h with h1 | h1
          · rw [hdt] at h1; simp at h1
          · exact h1
        rw [ih hrest]
        rfl
    · rw [if_pos (fun hx => hc hx)]
      apply ih
      rcases Bool.or_eq_true_iff.1 h with h1 | h1
      · simp [hc] at h1
      · exact h1

lemma countLoop_dead (c : Nat) (entries : List BTEntry)
    (h : anyLive c entries = false) :
    countLoop c entries = .ok (entryCount c entries) := by
  induction entries with
  | nil => rfl
  | cons e rest ih =>
    rw [show anyLive c (e :: rest) =
        ((e.cid == c && !e.deleted) || anyLive c rest) from rfl,
      Bool.or_eq_false_iff] at h
    unfold countLoop
    unfold entryCount
    rw [List.filter_cons]
    by_cases hc : e.cid = c
    · rw [if_neg (fun hx => hx hc)]
      have hd : ¬ e.deleted = false := by
        intro hdf
        rw [hc, hdf] at h
        simp at h
      rw [if_neg hd, ih h.2]
      have : (e.cid == c) = true := by simp [hc]
      rw [this]
      simp only [if_true, List.length_cons]
      rfl
    · rw [if_pos (fun hx => hc hx)]
      have : (e.cid == c) = false := by simp [hc]
      rw [this]
      simp only [Bool.false_eq_true, if_false]
      exact ih h.2

/-- C8 (amended): with the collection header found, _destroy_collection
returns ENOTEMPTY exactly when a cached entry of the collection is not
marked deleted, or the listing of up to entryCount+1 committed objects
has a size that differs from entryCount while being nonzero, or a listed
object has no cached entry at all; otherwise it returns 0 and clears the
header. This is not the claim's "exactly when some real object remains
undeleted": the size check also fires when every committed object is
deleted in the BT but some deleted entry has no committed object. -/
theorem C8_destroy_not_empty (entries : List BTEntry) (kvObjs : List Nat)
    (c : Nat) :
    (destroy_collection true entries kvObjs c = -39 ↔
      (anyLive c entries = true ∨
        ((kvObjs.take (entryCount c entries + 1)).length ≠
            entryCount c entries ∧
          (kvObjs.take (entryCount c entries + 1)).length ≠ 0) ∨
        (kvObjs.take (entryCount c entries + 1)).any (fun o =>
          !(entries.any (fun e2 => e2.cid == c && e2.oid == o))) =
            true)) ∧
    (destroy_collection true entries kvObjs c = 0 ↔
      ¬(anyLive c entries = true ∨
        ((kvObjs.take (entryCount c entries + 1)).length ≠
            entryCount c entries ∧
          (kvObjs.take (entryCount c entries + 1)).length ≠ 0) ∨
        (kvObjs.take (entryCount c entries + 1)).any (fun o =>
          !(entries.any (fun e2 => e2.cid == c && e2.oid == o))) =
            true)) := by
  by_cases hA : anyLive c entries = true
  · have hres : destroy_collection true entries kvObjs c = -39 := by
      unfold destroy_collection
      rw [if_neg (by simp), countLoop_live c entries hA]
    rw [hres]
    exact ⟨⟨fun _ => Or.inl hA, fun _ => rfl⟩,
      ⟨fun h0 => absurd h0 (by decide),
        fun hn => absurd (Or.inl hA) hn⟩⟩
  · have hAf : anyLive c entries = false := Bool.of_not_eq_true hA
    have hdead := countLoop_dead c entries hAf
    by_cases hB : ((kvObjs.take (entryCount c entries + 1)).length !=
        entryCount c entries &&
        (kvObjs.take (entryCount c entries + 1)).length != 0) = true
    · have hres : destroy_collection true entries kvObjs c = -39 := by
        unfold destroy_collection
        rw [if_neg (by simp), hdead]
        dsimp only
        rw [if_pos hB]
      have hBp : (kvObjs.take (entryCount c entries + 1)).length ≠
          entryCount c entries ∧
          (kvObjs.take (entryCount c entries + 1)).length ≠ 0 := by
        simpa [Bool.and_eq_true, bne_iff_ne] using hB
      rw [hres]
      exact ⟨⟨fun _ => Or.inr (Or.inl hBp), fun _ => rfl⟩,
        ⟨fun h0 => absurd h0 (by decide),
          fun hn => absurd (Or.inr (Or.inl hBp)) hn⟩⟩
    · by_cases hC : (kvObjs.take (entryCount c entries + 1)).any
          (fun o => !(entries.any (fun e2 =>
            e2.cid == c && e2.oid == o))) = true
      · have hres : destroy_collection true entries kvObjs c = -39 := by
          unfold destroy_collection
          rw [if_neg (by simp), hdead]
          dsimp only
          rw [if_neg hB, if_pos hC]
        rw [hres]
        exact ⟨⟨fun _ => Or.inr (Or.inr hC), fun _ => rfl⟩,
          ⟨fun h0 => absurd h0 (by decide),
            fun hn => absurd (Or.inr (Or.inr hC)) hn⟩⟩
      · have hres : destroy_collection true entries kvObjs c = 0 := by
          unfold destroy_collection
          rw [if_neg (by simp), hdead]
          dsimp only
          rw [if_neg hB, if_neg hC]
        have hnB : ¬((kvObjs.take (entryCount c entries + 1)).length ≠
            entryCount c entries ∧
            (kvObjs.take (entryCount c entries + 1)).length ≠ 0) := by
          intro hp
          exact hB (by
            rw [Bool.and_eq_true]
            exact ⟨bne_iff_ne.2 hp.1, bne_iff_ne.2 hp.2⟩)
        have hnD : ¬(anyLive c entries = true ∨
            ((kvObjs.take (entryCount c entries + 1)).length ≠
                entryCount c entries ∧
              (kvObjs.take (entryCount c entries + 1)).length ≠ 0) ∨
            (kvObjs.take (entryCount c entries + 1)).any (fun o =>
              !(entries.any (fun e2 =>
                e2.cid == c && e2.oid == o))) = true) := by
          rintro (h1 | h1 | h1)
          · exact hA h1
          · exact hnB h1
          · exact hC h1
        rw [hres]
        exact ⟨⟨fun h0 => absurd h0 (by decide),
            fun hd => absurd hd hnD⟩,
          ⟨fun _ => hnD, fun _ => rfl⟩⟩

/-- Counterexample to C8 as stated: two cached entries of the collection,
both marked deleted, one committed object which is among them — every
real object is marked deleted in the BT, yet the listing-size check fires
ENOTEMPTY. -/
theorem C8_destroy_not_empty_cex :
    destroy_collection true [⟨0, 1, true⟩, ⟨0, 2, true⟩] [1] 0 = -39 ∧
    ([1] : List Nat).all (fun o =>
      ([⟨0, 1, true⟩, ⟨0, 2, true⟩] : List BTEntry).any (fun e =>
        e.cid == 0 && e.oid == o && e.deleted)) = true := by
  decide

/-! ### _clone onto itself (claim C10)

KeyValueStore::_clone, lines 1875-1899, over a header cache holding many
objects. The header structure carries its own cid/oid as the source's
StripObjectHeader does (its definition lives in the header file, which is
not among the given sources; its fields are modelled from the spec). The
GenericObjectMap clone staged by clone_wrap is recorded as a transaction
op carrying its source and target keys. -/

/-- A cached StripObjectHeader with its identity fields. -/
structure MHeader where
  cid : Nat
  oid : Nat
  strip_size : Nat
  max_size : Nat
  bits : List Bool
  spos : SPos
  deleted : Bool
  buffers : Nat → Option (List Nat)

/-- Modelled from the spec: a default-constructed StripObjectHeader. -/
def defaultMHeader : MHeader :=
  ⟨0, 0, 0, 0, [], ⟨0, 0, 0⟩, false, fun _ => none⟩

/-- A staged GenericObjectMap mutation of the clone path. -/
inductive GOp where
  | cloneOp (srcCid srcOid dstCid dstOid : Nat)

/-- A BufferTransaction over the whole header cache: the cached headers
keyed by (cid, oid), the staged GOM mutations, and the position. -/
structure MBT where
  strip_headers : Nat × Nat → Option MHeader
  txn : List GOp
  spos : SPos

/-- BufferTransaction::lookup_cached_header with create_if_missing false
(lines 281-317): ENOENT when the collection check fails, a cached entry is
returned unless deleted, otherwise the committed header is decoded from
the backend and cached. The check_coll outcome is a parameter. -/
def mlookup_cached_header (collOk : Bool)
    (backend : Nat × Nat → Option MHeader) (cid oid : Nat) (t : MBT) :
    Except Int (MHeader × MBT) :=
  if collOk = false then .error (-2)
  else
    match t.strip_headers (cid, oid) with
    | some h => if h.deleted then .error (-2) else .ok (h, t)
    | none =>
      match backend (cid, oid) with
      | none => .error (-2)
      | some h =>
        .ok (h, { t with strip_headers := fun k =>
          if k = (cid, oid) then (some h) else t.strip_headers k })

/-- BufferTransaction::clone_buffer (lines 394-414): skipped by
check_spos; otherwise the target's cache slot is erased, the GOM clone is
staged, and clone_wrap's two out-headers are stored: the origin slot gets
a default-constructed header carrying only the new position (clone_wrap
sets nothing else on its origin out-parameter), the target slot a copy of
the old header re-keyed to (cid, oid) at the new position. -/
def clone_buffer (old_h : MHeader) (cid oid : Nat) (t : MBT) : MBT :=
  if check_spos old_h.spos (some t.spos) then t
  else
    let hs1 : Nat × Nat → Option MHeader := fun k =>
      if k = (cid, oid) then none else t.strip_headers k
    let origin : MHeader := { defaultMHeader with spos := t.spos }
    let target : MHeader :=
      { old_h with cid := cid, oid := oid, spos := t.spos }
    { strip_headers := fun k =>
        if k = (cid, oid) then (some target)
        else if k = (cid, old_h.oid) then (some origin)
        else hs1 k
      txn := t.txn ++ [GOp.cloneOp old_h.cid old_h.oid cid oid]
      spos := t.spos }

/-- KeyValueStore::_clone: cloning an object onto itself returns 0 before
reading or writing anything; otherwise the old header is looked up
(ENOENT propagates) and clone_buffer stages the clone. -/
def clone (collOk : Bool) (backend : Nat × Nat → Option MHeader)
    (cid oldoid newoid : Nat) (t : MBT) : Int × MBT :=
  if oldoid = newoid then (0, t)
  else
    match mlookup_cached_header collOk backend cid oldoid t with
    | .error e => (e, t)
    | .ok (old_h, t1) => (0, clone_buffer old_h cid newoid t1)

/-- C10: for every collection-check outcome, committed backend, cid, oid
and BufferTransaction state, _clone of an object onto itself returns 0
and leaves the transaction — cached headers, staged mutations and
position — exactly as it was. -/
theorem C10_self_clone_noop (collOk : Bool)
    (backend : Nat × Nat → Option MHeader) (cid oid : Nat) (t : MBT) :
    clone collOk backend cid oid oid t = (0, t) := by
  unfold clone
  rw [if_pos rfl]

end KVStore
